import Mathlib

/-!
A shallow embedding of the Triptych proof system core (`src/proof.rs`) over an
abstract prime-order group, modelled as a module `P` over a scalar field `F`.
The group, the transcript primitive and the random number generator are
external collaborators of the crate; they enter as type parameters, an
oracle function and explicit sampled values.  Rust vector indexing `v[i]`
(which panics when out of bounds) is modelled by checked lookups in an
`Option` layer: a result of `none` represents a panic, `some (Except.error e)`
a returned `ProofError`, and `some (Except.ok x)` a normal return.
-/

set_option linter.unusedSectionVars false
set_option linter.unusedVariables false

namespace Triptych

/-- Errors that can arise relating to proofs (proof.rs, `ProofError`). -/
inductive ProofError where
  | InvalidParameter
  | InvalidChallenge
deriving DecidableEq, Repr

/-- One labelled absorb operation of the Fiat-Shamir transcript.  The merlin
transcript is external; we record the exact sequence of labelled appends.
Points are stored directly: canonical 32-byte compression is injective, so
absorbing a point stands for absorbing its compression. -/
inductive TEntry (P : Type) where
  | init : String → TEntry P
  | u64 : String → ℕ → TEntry P
  | bytes : String → List ℕ → TEntry P
  | point : String → P → TEntry P
deriving DecidableEq

/-- Modelled from the spec: `Parameters` (parameters.rs is not under src/).
Holds `n`, `m`, the base point `G`, the linking generator `U`, the blinding
generator `CommitmentH`, the `m × n` commitment generators `CommitmentG`
(stored row-major, as the flat vector of `n·m` generators), and the 32-byte
domain hash binding all of them.  Generator derivation is hash-to-curve and
external, so generators and hash are plain data here. -/
structure Params (F P : Type) where
  n : ℕ
  m : ℕ
  Gg : P
  U : P
  CommitmentH : P
  CommitmentG : List (List P)
  hash : List ℕ
deriving DecidableEq

/-- The derived input-set size `N = nᵐ` (spec: `Parameters::get_N`). -/
def Params.N {F P : Type} (params : Params F P) : ℕ := params.n ^ params.m

/-- The invariant `Parameters::new` establishes (spec: it fails unless
`n ≥ 2` and `m ≥ 2`), together with the well-formedness of the generator
matrix built there: `m` rows of `n` generators each. -/
def Params.Valid {F P : Type} (params : Params F P) : Prop :=
  2 ≤ params.n ∧ 2 ≤ params.m ∧ params.CommitmentG.length = params.m ∧
    ∀ row ∈ params.CommitmentG, row.length = params.n

instance {F P : Type} [DecidableEq P] (params : Params F P) :
    Decidable params.Valid := by
  unfold Params.Valid; infer_instance

/-- Modelled from the spec: `InputSet` (statement.rs is not under src/): the
public vector of keys and its canonical 32-byte hash (the digest computation
is external hashing; the hash is plain data). -/
structure InputSet (P : Type) where
  keys : List P
  hash : List ℕ

/-- Modelled from the spec: `Statement` (statement.rs is not under src/).
`Statement::new` requires `|input_set| = N`, so the invariant is part of the
structure. -/
structure Statement (F P : Type) where
  params : Params F P
  input_set : InputSet P
  J : P
  hleng : input_set.keys.length = params.N

/-- Modelled from the spec: `Witness` (witness.rs is not under src/).
`Witness::new` validates `l ∈ [0, N)` and `r ≠ 0`, so the invariants are part
of the structure. -/
structure Witness (F P : Type) [Zero F] where
  params : Params F P
  l : ℕ
  r : F
  hl : l < params.N
  hr : r ≠ 0

/-- A Triptych proof (proof.rs, `struct Proof`). -/
structure Proof (F P : Type) where
  A : P
  B : P
  C : P
  D : P
  X : List P
  Y : List P
  f : List (List F)
  z_A : F
  z_C : F
  z : F

/-- The scalars `Proof::prove` draws from the caller's rng, as oracles
indexed by draw position: `r_A`, the `m × n` matrix samples `aInit j i`,
`r_B`, `r_C`, `r_D`, and the mask vector `rho j`. -/
structure ProveRand (F : Type) where
  r_A : F
  aInit : ℕ → ℕ → F
  r_B : F
  r_C : F
  r_D : F
  rho : ℕ → F

section Monad

variable {E : Type} {α β : Type}

/-- Normal return in the panic-or-error layer. -/
def oret (a : α) : Option (Except ProofError α) := some (Except.ok a)

/-- A returned `ProofError` (Rust `return Err(e)`). -/
def othrow (e : ProofError) : Option (Except ProofError α) := some (Except.error e)

/-- Sequencing in the panic-or-error layer. -/
def obind (x : Option (Except ProofError α)) (f : α → Option (Except ProofError β)) :
    Option (Except ProofError β) :=
  match x with
  | none => none
  | some (Except.error e) => some (Except.error e)
  | some (Except.ok a) => f a

/-- Rust vector indexing `v[i]`: panics (`none`) when out of bounds. -/
def oidx (xs : List α) (i : ℕ) : Option (Except ProofError α) :=
  (xs[i]?).map Except.ok

/-- Rust matrix indexing `v[j][i]`. -/
def oidx2 (mtx : List (List α)) (j i : ℕ) : Option (Except ProofError α) :=
  obind (oidx mtx j) fun row => oidx row i

/-- Rust slot assignment `v[i] = x`: panics when out of bounds. -/
def oset (xs : List α) (i : ℕ) (v : α) : Option (Except ProofError (List α)) :=
  if i < xs.length then oret (xs.set i v) else none

/-- Rust `opt.ok_or(ProofError::InvalidParameter)?`. -/
def okOrInvalid (x : Option α) : Option (Except ProofError α) :=
  some (match x with
        | none => Except.error ProofError.InvalidParameter
        | some a => Except.ok a)

/-- Collecting loop in the panic-or-error layer. -/
def omapM (xs : List α) (f : α → Option (Except ProofError β)) :
    Option (Except ProofError (List β)) :=
  match xs with
  | [] => oret []
  | x :: rest => obind (f x) fun y => obind (omapM rest f) fun ys => oret (y :: ys)

/-- Accumulating loop in the panic-or-error layer. -/
def ofoldM (xs : List β) (init : α) (f : α → β → Option (Except ProofError α)) :
    Option (Except ProofError α) :=
  match xs with
  | [] => oret init
  | x :: rest => obind (f init x) fun a => ofoldM rest a f

/-- Rust `match` on a `Result`, mapping the error arm to a fixed value. -/
def withOk (x : Except ProofError α) (bad : β) (f : α → β) : β :=
  match x with
  | Except.error _ => bad
  | Except.ok a => f a

/-- Rust indexing/collection whose failure arm is a panic (`none`). -/
def withSome (x : Option α) (f : α → Option β) : Option β :=
  match x with
  | none => none
  | some a => f a

/-- Rust `match` on a panic-or-error value inside a boolean-returning
function: a panic propagates, a returned error arm yields `false`. -/
def withOk3 (x : Option (Except ProofError α)) (f : α → Option Bool) : Option Bool :=
  match x with
  | none => none
  | some (Except.error _) => some false
  | some (Except.ok a) => f a

theorem obind_oret (a : α) (f : α → Option (Except ProofError β)) :
    obind (oret a) f = f a := rfl

theorem obind_othrow (e : ProofError) (f : α → Option (Except ProofError β)) :
    obind (othrow e) f = othrow e := rfl

theorem obind_none (f : α → Option (Except ProofError β)) :
    obind none f = none := rfl

theorem withOk_ok (a : α) (bad : β) (f : α → β) :
    withOk (Except.ok a) bad f = f a := rfl

theorem withOk_error (e : ProofError) (bad : β) (f : α → β) :
    withOk (Except.error e) bad f = bad := rfl

theorem withSome_some (a : α) (f : α → Option β) :
    withSome (some a) f = f a := rfl

theorem withSome_none (f : α → Option β) :
    withSome (none : Option α) f = none := rfl

theorem withOk3_oret (a : α) (f : α → Option Bool) :
    withOk3 (oret a) f = f a := rfl

theorem withOk3_othrow (e : ProofError) (f : α → Option Bool) :
    withOk3 (othrow e) f = some false := rfl

theorem withOk3_none (f : α → Option Bool) :
    withOk3 (none : Option (Except ProofError α)) f = none := rfl

theorem oidx_eq_oret (xs : List α) (i : ℕ) (h : i < xs.length) :
    oidx xs i = oret (xs[i]) := by
  simp [oidx, List.getElem?_eq_getElem h, oret]

theorem oidx_getD (xs : List α) (i : ℕ) (d : α) (h : i < xs.length) :
    oidx xs i = oret (xs.getD i d) := by
  rw [oidx_eq_oret xs i h, List.getD_eq_getElem xs d h]

theorem omapM_oret (xs : List α) (g : α → β) (f : α → Option (Except ProofError β))
    (h : ∀ x ∈ xs, f x = oret (g x)) : omapM xs f = oret (xs.map g) := by
  induction xs with
  | nil => rfl
  | cons x rest ih =>
      have hx := h x (List.mem_cons_self x rest)
      have hrest : omapM rest f = oret (rest.map g) :=
        ih fun y hy => h y (List.mem_cons_of_mem x hy)
      simp [omapM, hx, hrest, obind_oret, List.map_cons]

theorem ofoldM_oret (xs : List β) (init : α) (g : α → β → α)
    (f : α → β → Option (Except ProofError α))
    (h : ∀ a : α, ∀ x ∈ xs, f a x = oret (g a x)) :
    ofoldM xs init f = oret (xs.foldl g init) := by
  induction xs generalizing init with
  | nil => rfl
  | cons x rest ih =>
      have hx := h init x (List.mem_cons_self x rest)
      have hrest : ofoldM rest (g init x) f = oret (rest.foldl g (g init x)) :=
        ih (g init x) fun a y hy => h a y (List.mem_cons_of_mem x hy)
      simp [ofoldM, hx, hrest, obind_oret, List.foldl_cons]

/-- A collecting loop in the plain `Option` (panic-only) layer. -/
def optionMapM (xs : List α) (f : α → Option β) : Option (List β) :=
  match xs with
  | [] => some []
  | x :: rest => (f x).bind fun y => (optionMapM rest f).map fun ys => y :: ys

theorem optionMapM_some (xs : List α) (g : α → β) (f : α → Option β)
    (h : ∀ x ∈ xs, f x = some (g x)) : optionMapM xs f = some (xs.map g) := by
  induction xs with
  | nil => rfl
  | cons x rest ih =>
      have hx := h x (List.mem_cons_self x rest)
      have hrest : optionMapM rest f = some (rest.map g) :=
        ih fun y hy => h y (List.mem_cons_of_mem x hy)
      simp [optionMapM, hx, hrest, List.map_cons]

end Monad

variable {F : Type} [Field F] [DecidableEq F]
variable {P : Type} [AddCommGroup P] [Module F P] [DecidableEq P]

/-- Proof version flag (proof.rs, `const VERSION: u64 = 0`). -/
def VERSION : ℕ := 0

/-- Kronecker delta function with scalar output (proof.rs, `fn delta`). -/
def delta (x y : ℕ) : F :=
  if x = y then 1 else 0

/-- Little-endian base-`n` digits, `m` of them (the digit loop inside
`Parameters::decompose`). -/
def natDigits (n : ℕ) : ℕ → ℕ → List ℕ
  | _, 0 => []
  | k, m + 1 => k % n :: natDigits n (k / n) m

/-- Modelled from the spec: `Parameters::decompose(k)` returns the base-`n`
digits of `k` (little-endian, `m` digits) and fails if `k ≥ N`. -/
def Params.decompose (params : Params F P) (k : ℕ) : Option (List ℕ) :=
  if k < params.N then some (natDigits params.n k params.m) else none

/-- Multiscalar multiplication `Σ aᵢ·Pᵢ` over paired lists (the external
group library's `multiscalar_mul` / `vartime_multiscalar_mul`). -/
def msm (scalars : List F) (points : List P) : P :=
  (List.zipWith (fun c pt => c • pt) scalars points).sum

/-- Modelled from the spec: `Parameters::commit_matrix(X, ρ) =
ρ·CommitmentH + Σ_{j,i} X[j][i]·CommitmentG[j][i]`. -/
def Params.commit_matrix (params : Params F P) (Xm : List (List F)) (rho : F) : P :=
  rho • params.CommitmentH +
    (List.zipWith (fun row grow => msm row grow) Xm params.CommitmentG).sum

/-- The transcript the prover builds (proof.rs lines 126-133 and 253-262):
initialisation label, version, optional message, parameter hash, input-set
hash, `J`, then `A`, `B`, `C`, `D` and each `X[j]` and `Y[j]`. -/
def proveTranscript (statement : Statement F P) (message : Option (List ℕ))
    (A B Cc D : P) (X Y : List P) : List (TEntry P) :=
  [TEntry.init "Triptych proof", TEntry.u64 "version" VERSION] ++
    (match message with
     | some msg => [TEntry.bytes "message" msg]
     | none => []) ++
    [TEntry.bytes "params" statement.params.hash,
     TEntry.bytes "M" statement.input_set.hash,
     TEntry.point "J" statement.J,
     TEntry.point "A" A,
     TEntry.point "B" B,
     TEntry.point "C" Cc,
     TEntry.point "D" D] ++
    X.map (TEntry.point "X") ++ Y.map (TEntry.point "Y")

/-- The transcript the verifier builds (proof.rs lines 316-334), from the
statement, the message and the proof elements. -/
def verifyTranscript (statement : Statement F P) (message : Option (List ℕ))
    (A B Cc D : P) (X Y : List P) : List (TEntry P) :=
  [TEntry.init "Triptych proof", TEntry.u64 "version" VERSION] ++
    (match message with
     | some msg => [TEntry.bytes "message" msg]
     | none => []) ++
    [TEntry.bytes "params" statement.params.hash,
     TEntry.bytes "M" statement.input_set.hash,
     TEntry.point "J" statement.J,
     TEntry.point "A" A,
     TEntry.point "B" B,
     TEntry.point "C" Cc,
     TEntry.point "D" D] ++
    X.map (TEntry.point "X") ++ Y.map (TEntry.point "Y")

/-- The loop body of `xi_powers` (proof.rs lines 72-81): run `cnt` times,
checking the current power for zero before pushing it. -/
def xiPowersGo (xi : F) : ℕ → F → Except ProofError (List F)
  | 0, _ => Except.ok []
  | cnt + 1, pw =>
      if pw = 0 then Except.error ProofError.InvalidChallenge
      else
        match xiPowersGo xi cnt (pw * xi) with
        | Except.ok rest => Except.ok (pw :: rest)
        | Except.error e => Except.error e

/-- Get nonzero powers of a challenge value (proof.rs, `fn xi_powers`): the
powers `[ξ⁰, …, ξᵐ]` of the drawn challenge, or `InvalidChallenge` if any of
them is zero.  The challenge draw itself (64 transcript bytes under label
`"xi"`, wide-reduced) is factored out into the caller's oracle value `xi`. -/
def xi_powers (xi : F) (m : ℕ) : Except ProofError (List F) :=
  xiPowersGo xi (m + 1) 1

/-- Rust `Vec::rotate_right(1)`: the last element moves to the front. -/
def rotr1 {α : Type} (l : List α) : List α :=
  match l.getLast? with
  | none => l
  | some x => x :: l.dropLast

/-- One convolution step of the `p` coefficient computation (proof.rs lines
211-232): multiply in the degree-one polynomial for row `j`. -/
def convStep (a sigma : List (List F)) (k_decomposed : List ℕ)
    (coefficients : List F) (j : ℕ) : Option (Except ProofError (List F)) :=
  obind (oidx k_decomposed j) fun dj =>
  obind (oidx2 a j dj) fun ajd =>
  obind (oidx2 sigma j dj) fun sjd =>
  let degree_0_portion := coefficients.map fun c => ajd * c
  let shifted_coefficients := rotr1 coefficients
  let degree_1_portion := shifted_coefficients.map fun c => sjd * c
  oret (List.zipWith (fun x y => x + y) degree_0_portion degree_1_portion)

/-- The coefficients of one polynomial `p_k` by repeated convolution
(proof.rs lines 204-232): start from `[a[0][d₀], σ[0][d₀], 0, …, 0]` and
convolve with each remaining degree-one polynomial. -/
def convCoeffs (a sigma : List (List F)) (k_decomposed : List ℕ) (m : ℕ) :
    Option (Except ProofError (List F)) :=
  obind (oidx k_decomposed 0) fun d0 =>
  obind (oidx2 a 0 d0) fun a0 =>
  obind (oidx2 sigma 0 d0) fun s0 =>
  obind (oset (List.replicate (m + 1) (0 : F)) 0 a0) fun c0 =>
  obind (oset c0 1 s0) fun c1 =>
  ofoldM (List.range' 1 (m - 1)) c1 (convStep a sigma k_decomposed)

/-- The verifier's reconstruction of one full row of `f` (proof.rs lines
345-352): prepend `ξ − Σ_{i≥1} f[j][i]` to the stored row. -/
def fRebuild (xi1 : F) (row : List F) : List F :=
  (xi1 - row.sum) :: row

/-- Generate a Triptych proof (proof.rs, `Proof::prove`).  The rng is the
explicit sample record `rnd`; the transcript challenge draw is the oracle
`chal` applied to the absorbed entries.  `none` models a panic, `some
(Except.error e)` a returned error. -/
def Proof.prove (witness : Witness F P) (statement : Statement F P)
    (message : Option (List ℕ)) (rnd : ProveRand F)
    (chal : List (TEntry P) → F) : Option (Except ProofError (Proof F P)) :=
  if witness.params ≠ statement.params then othrow ProofError.InvalidParameter else
  let r := witness.r
  let l := witness.l
  let M := statement.input_set.keys
  let params := statement.params
  let J := statement.J
  obind (okOrInvalid M[l]?) fun Ml =>
  if Ml ≠ r • params.Gg then othrow ProofError.InvalidParameter else
  if r • J ≠ params.U then othrow ProofError.InvalidParameter else
  let r_A := rnd.r_A
  let a0 := (List.range params.m).map fun j =>
    (List.range params.n).map fun i => rnd.aInit j i
  obind (omapM a0 fun row => oset row 0 (-(row.drop 1).sum)) fun a =>
  let A := params.commit_matrix a r_A
  let r_B := rnd.r_B
  obind (okOrInvalid (params.decompose l)) fun l_decomposed =>
  obind (omapM (List.range params.m) fun j =>
    omapM (List.range params.n) fun i =>
      obind (oidx l_decomposed j) fun d => oret (delta d i)) fun sigma =>
  let B := params.commit_matrix sigma r_B
  let two : F := 2
  let r_C := rnd.r_C
  obind (omapM (List.range params.m) fun j =>
    omapM (List.range params.n) fun i =>
      obind (oidx2 a j i) fun aji =>
      obind (oidx2 sigma j i) fun sji =>
      oret (aji * (1 - two * sji))) fun a_sigma =>
  let Cc := params.commit_matrix a_sigma r_C
  let r_D := rnd.r_D
  obind (omapM (List.range params.m) fun j =>
    omapM (List.range params.n) fun i =>
      obind (oidx2 a j i) fun aji => oret (-aji * aji)) fun a_square =>
  let D := params.commit_matrix a_square r_D
  let rho := (List.range params.m).map fun j => rnd.rho j
  obind (omapM (List.range params.N) fun k =>
    obind (okOrInvalid (params.decompose k)) fun k_decomposed =>
    convCoeffs a sigma k_decomposed params.m) fun p =>
  obind (omapM rho.enum fun je =>
    obind (omapM p fun pk => oidx pk je.1) fun pj =>
    oret (msm (pj ++ [je.2]) (M ++ [params.Gg]))) fun X =>
  let Y := rho.map fun rhoj => rhoj • J
  let xi := chal (proveTranscript statement message A B Cc D X Y)
  obind (some (xi_powers xi params.m)) fun xi_pows =>
  obind (omapM (List.range params.m) fun j =>
    omapM (List.range' 1 (params.n - 1)) fun i =>
      obind (oidx2 sigma j i) fun sji =>
      obind (oidx xi_pows 1) fun xi1 =>
      obind (oidx2 a j i) fun aji =>
      oret (sji * xi1 + aji)) fun f =>
  obind (oidx xi_pows 1) fun xi1 =>
  let z_A := r_A + xi1 * r_B
  let z_C := xi1 * r_C + r_D
  obind (oidx xi_pows params.m) fun xim =>
  let z := r * xim - (List.zipWith (fun rhoj xp => rhoj * xp) rho xi_pows).sum
  oret { A := A, B := B, C := Cc, D := D, X := X, Y := Y, f := f,
         z_A := z_A, z_C := z_C, z := z }

/-- Verify a Triptych proof (proof.rs, `Proof::verify`).  The three random
weights the verifier samples from its rng are the explicit values `w1`, `w2`,
`w4`; the challenge draw is the oracle `chal`.  `none` models a panic. -/
def Proof.verify (proof : Proof F P) (statement : Statement F P)
    (message : Option (List ℕ)) (w1 w2 w4 : F)
    (chal : List (TEntry P) → F) : Option Bool :=
  let M := statement.input_set.keys
  let params := statement.params
  let J := statement.J
  let xi := chal (verifyTranscript statement message
    proof.A proof.B proof.C proof.D proof.X proof.Y)
  withOk (xi_powers xi params.m) (some false) fun xi_pows =>
  withSome (xi_pows[1]?) fun xi1 =>
  withSome (optionMapM (List.range params.m) fun j =>
      (proof.f[j]?).map fun fj => fRebuild xi1 fj) fun f =>
  let scalars_G := [-proof.z]
  let scalars_CG := (f.map fun f_row =>
    f_row.map fun f_item => w1 * f_item + w2 * f_item * (xi1 - f_item)).flatten
  let scalars_H := [w1 * proof.z_A + w2 * proof.z_C]
  let scalars_ABCD := [-w1, -w1 * xi1, -w2 * xi1, -w2]
  let scalars_J := [-w4 * proof.z]
  let scalars_X := (xi_pows.take params.m).map fun xp => -xp
  let scalars_Y := (xi_pows.take params.m).map fun xp => -w4 * xp
  withOk3 (omapM (List.range params.N) fun k =>
      obind (okOrInvalid (params.decompose k)) fun k_decomposed =>
      obind (omapM (List.range params.m) fun j =>
        obind (oidx f j) fun frow =>
        obind (oidx k_decomposed j) fun dj =>
        oidx frow dj) fun fs =>
      oret fs.prod) fun mScalars =>
  let U_scalar := mScalars.sum
  let scalars := scalars_G ++ scalars_CG ++ scalars_H ++ scalars_ABCD ++
    scalars_J ++ scalars_X ++ scalars_Y ++ mScalars ++ [w4 * U_scalar]
  let points := [params.Gg] ++ params.CommitmentG.flatten ++
    [params.CommitmentH, proof.A, proof.B, proof.C, proof.D, J] ++
    proof.X ++ proof.Y ++ M ++ [params.U]
  some (decide (msm scalars points = 0))

/-! Closed forms of the values the prover computes, used to state the
evaluation lemmas: the adjusted mask matrix `a`, the index matrix `σ`, the
mask vector `ρ`, the convolution outputs `p_k`, and the commitments. -/

/-- Entry `a[j][i]` of the prover's mask matrix after the row adjustment
`a[j][0] = −Σ_{i≥1} a[j][i]`. -/
def aIdx (n : ℕ) (rnd : ProveRand F) (j i : ℕ) : F :=
  if i = 0 then -(∑ t ∈ Finset.range (n - 1), rnd.aInit j (t + 1)) else rnd.aInit j i

/-- Entry `σ[j][i] = δ(l_decomposed[j], i)` of the prover's index matrix. -/
def sIdx (n m l j i : ℕ) : F :=
  delta ((natDigits n l m).getD j 0) i

/-- The prover's adjusted mask matrix as a list matrix. -/
def aMatL (n m : ℕ) (rnd : ProveRand F) : List (List F) :=
  (List.range m).map fun j => (List.range n).map fun i => aIdx n rnd j i

/-- The prover's index matrix as a list matrix. -/
def sMatL (n m l : ℕ) : List (List F) :=
  (List.range m).map fun j => (List.range n).map fun i => sIdx n m l j i

/-- The pure value of one convolution step (the body of proof.rs lines
211-232 once all indexing is in bounds). -/
def cstep (av sv : F) (c : List F) : List F :=
  List.zipWith (fun x y => x + y) (c.map fun cc => av * cc)
    ((rotr1 c).map fun cc => sv * cc)

/-- The pure value of the convolution output `p_k` for index `k`. -/
def pRowL (n m l : ℕ) (rnd : ProveRand F) (k : ℕ) : List F :=
  (List.range' 1 (m - 1)).foldl
    (fun c j => cstep (aIdx n rnd j ((natDigits n k m).getD j 0))
      (sIdx n m l j ((natDigits n k m).getD j 0)) c)
    (((List.replicate (m + 1) (0 : F)).set 0
        (aIdx n rnd 0 ((natDigits n k m).getD 0 0))).set 1
      (sIdx n m l 0 ((natDigits n k m).getD 0 0)))

/-- The prover's mask vector `ρ` as a list. -/
def rhoL (m : ℕ) (rnd : ProveRand F) : List F :=
  (List.range m).map fun j => rnd.rho j

/-- The honest `X` vector: `X[j] = Σ_k p_k[j]·M[k] + ρ[j]·G`. -/
def XvalL (params : Params F P) (l : ℕ) (rnd : ProveRand F) (keys : List P) : List P :=
  (List.range params.m).map fun j =>
    msm (((List.range params.N).map fun k => (pRowL params.n params.m l rnd k).getD j 0)
        ++ [rnd.rho j])
      (keys ++ [params.Gg])

/-- The honest `Y` vector: `Y[j] = ρ[j]·J`. -/
def YvalL (m : ℕ) (rnd : ProveRand F) (J : P) : List P :=
  (List.range m).map fun j => rnd.rho j • J

section ListLemmas

variable {M : Type} [AddCommMonoid M]

theorem list_sum_range_map (g : ℕ → M) (n : ℕ) :
    ((List.range n).map g).sum = ∑ i ∈ Finset.range n, g i := by
  induction n with
  | zero => simp
  | succ n ih => simp [List.range_succ, Finset.sum_range_succ, ih]

theorem list_prod_range_map {G : Type} [CommMonoid G] (g : ℕ → G) (n : ℕ) :
    ((List.range n).map g).prod = ∏ i ∈ Finset.range n, g i := by
  induction n with
  | zero => simp
  | succ n ih => simp [List.range_succ, Finset.prod_range_succ, ih]

theorem getD_range_map {α : Type} (g : ℕ → α) (n i : ℕ) (d : α) (h : i < n) :
    ((List.range n).map g).getD i d = g i := by
  rw [List.getD_eq_getElem _ d (by simpa using h)]
  simp

theorem getElemq_range_map {α : Type} (g : ℕ → α) (n i : ℕ) (h : i < n) :
    ((List.range n).map g)[i]? = some (g i) := by
  rw [List.getElem?_eq_getElem (by simpa using h)]
  simp

theorem sum_range_add_right (a b : ℕ) (g : ℕ → M) :
    ∑ k ∈ Finset.range (a + b), g k =
      (∑ k ∈ Finset.range a, g k) + ∑ i ∈ Finset.range b, g (a + i) := by
  induction b with
  | zero => simp
  | succ b ih =>
      rw [← Nat.add_assoc, Finset.sum_range_succ, ih, Finset.sum_range_succ, add_assoc]

theorem sum_range_mul_split (n N : ℕ) (g : ℕ → M) :
    ∑ k ∈ Finset.range (n * N), g k =
      ∑ s ∈ Finset.range N, ∑ i ∈ Finset.range n, g (n * s + i) := by
  induction N with
  | zero => simp
  | succ N ih =>
      rw [Nat.mul_succ, sum_range_add_right, ih, Finset.sum_range_succ]

end ListLemmas

section DigitLemmas

theorem natDigits_length (n k m : ℕ) : (natDigits n k m).length = m := by
  induction m generalizing k with
  | zero => rfl
  | succ m ih => simp [natDigits, ih]

theorem natDigits_lt (n k m : ℕ) (hn : 0 < n) :
    ∀ d ∈ natDigits n k m, d < n := by
  induction m generalizing k with
  | zero => simp [natDigits]
  | succ m ih =>
      intro d hd
      rcases List.mem_cons.mp hd with h | h
      · exact h ▸ Nat.mod_lt _ hn
      · exact ih (k / n) d h

theorem natDigits_getD_lt (n k m j : ℕ) (hn : 0 < n) (hj : j < m) :
    (natDigits n k m).getD j 0 < n := by
  apply natDigits_lt n k m hn
  rw [List.getD_eq_getElem _ 0 (by rw [natDigits_length]; exact hj)]
  exact List.getElem_mem _

theorem natDigits_inj (n m : ℕ) : ∀ k l : ℕ, k < n ^ m → l < n ^ m →
    natDigits n k m = natDigits n l m → k = l := by
  induction m with
  | zero =>
      intro k l hk hl _
      simp only [pow_zero, Nat.lt_one_iff] at hk hl
      omega
  | succ m ih =>
      intro k l hk hl h
      have hn : 0 < n := by
        rcases Nat.eq_zero_or_pos n with h0 | h0
        · subst h0; simp at hk
        · exact h0
      simp only [natDigits, List.cons.injEq] at h
      have hdivk : k / n < n ^ m := by
        rw [Nat.div_lt_iff_lt_mul hn, ← pow_succ]; exact hk
      have hdivl : l / n < n ^ m := by
        rw [Nat.div_lt_iff_lt_mul hn, ← pow_succ]; exact hl
      have hdiv := ih (k / n) (l / n) hdivk hdivl h.2
      calc k = n * (k / n) + k % n := (Nat.div_add_mod k n).symm
        _ = n * (l / n) + l % n := by rw [hdiv, h.1]
        _ = l := Nat.div_add_mod l n

theorem natDigits_mul_add (n s i m : ℕ) (hi : i < n) :
    natDigits n (n * s + i) (m + 1) = i :: natDigits n s m := by
  have hn : 0 < n := by omega
  have h1 : (n * s + i) % n = i := by
    rw [Nat.mul_add_mod]; exact Nat.mod_eq_of_lt hi
  have h2 : (n * s + i) / n = s := by
    rw [Nat.mul_add_div hn, Nat.div_eq_of_lt hi, Nat.add_zero]
  simp [natDigits, h1, h2]

theorem digit_prod_sum (n m : ℕ) (hn : 0 < n) (g : ℕ → ℕ → F) :
    ∑ k ∈ Finset.range (n ^ m), ∏ j ∈ Finset.range m, g j ((natDigits n k m).getD j 0)
      = ∏ j ∈ Finset.range m, ∑ i ∈ Finset.range n, g j i := by
  induction m generalizing g with
  | zero => simp
  | succ m ih =>
      have hpow : n ^ (m + 1) = n * n ^ m := by rw [pow_succ, Nat.mul_comm]
      rw [hpow, sum_range_mul_split]
      have hterm : ∀ s ∈ Finset.range (n ^ m), ∀ i ∈ Finset.range n,
          ∏ j ∈ Finset.range (m + 1), g j ((natDigits n (n * s + i) (m + 1)).getD j 0)
            = (∏ j ∈ Finset.range m, g (j + 1) ((natDigits n s m).getD j 0)) * g 0 i := by
        intro s _ i hi
        rw [natDigits_mul_add n s i m (Finset.mem_range.mp hi), Finset.prod_range_succ']
        rfl
      calc ∑ s ∈ Finset.range (n ^ m), ∑ i ∈ Finset.range n,
              ∏ j ∈ Finset.range (m + 1), g j ((natDigits n (n * s + i) (m + 1)).getD j 0)
          = ∑ s ∈ Finset.range (n ^ m), ∑ i ∈ Finset.range n,
              (∏ j ∈ Finset.range m, g (j + 1) ((natDigits n s m).getD j 0)) * g 0 i := by
            refine Finset.sum_congr rfl fun s hs => Finset.sum_congr rfl fun i hi => ?_
            exact hterm s hs i hi
        _ = (∑ s ∈ Finset.range (n ^ m),
              ∏ j ∈ Finset.range m, g (j + 1) ((natDigits n s m).getD j 0))
            * ∑ i ∈ Finset.range n, g 0 i := by
            rw [Finset.sum_mul]
            exact Finset.sum_congr rfl fun s _ => (Finset.mul_sum _ _ _).symm
        _ = (∏ j ∈ Finset.range m, ∑ i ∈ Finset.range n, g (j + 1) i)
            * ∑ i ∈ Finset.range n, g 0 i := by rw [ih (fun j => g (j + 1))]
        _ = ∏ j ∈ Finset.range (m + 1), ∑ i ∈ Finset.range n, g j i := by
            rw [Finset.prod_range_succ']

theorem delta_digit_prod (n m k l : ℕ) (hn : 0 < n) (hk : k < n ^ m) (hl : l < n ^ m) :
    (∏ j ∈ Finset.range m,
      (delta ((natDigits n l m).getD j 0) ((natDigits n k m).getD j 0) : F))
      = if k = l then 1 else 0 := by
  by_cases hkl : k = l
  · subst hkl
    simp [delta]
  · simp only [if_neg hkl]
    have hne : natDigits n k m ≠ natDigits n l m := by
      intro h
      exact hkl (natDigits_inj n m k l hk hl h)
    have : ∃ j < m, (natDigits n l m).getD j 0 ≠ (natDigits n k m).getD j 0 := by
      by_contra hno
      push_neg at hno
      apply hne
      apply List.ext_getElem (by rw [natDigits_length, natDigits_length])
      intro j h1 h2
      have hj : j < m := by rwa [natDigits_length] at h1
      have := hno j hj
      rw [List.getD_eq_getElem _ 0 h2, List.getD_eq_getElem _ 0 h1] at this
      exact this.symm
    obtain ⟨j, hj, hne'⟩ := this
    refine Finset.prod_eq_zero (Finset.mem_range.mpr hj) ?_
    simp only [delta, if_neg hne']

end DigitLemmas

section MsmLemmas

theorem msm_nil_left (points : List P) : msm ([] : List F) points = 0 := rfl

theorem msm_cons (c : F) (pt : P) (s : List F) (ps : List P) :
    msm (c :: s) (pt :: ps) = c • pt + msm s ps := by
  simp [msm]

theorem msm_append (s1 s2 : List F) (p1 p2 : List P) (h : s1.length = p1.length) :
    msm (s1 ++ s2) (p1 ++ p2) = msm s1 p1 + msm s2 p2 := by
  unfold msm
  rw [List.zipWith_append _ _ _ _ _ h, List.sum_append]

theorem msm_map_range (c : ℕ → F) (xs : List P) :
    msm ((List.range xs.length).map c) xs
      = ∑ k ∈ Finset.range xs.length, c k • xs.getD k 0 := by
  induction xs generalizing c with
  | nil => simp [msm]
  | cons x rest ih =>
      have hlen : (x :: rest).length = rest.length + 1 := rfl
      rw [hlen, List.range_succ_eq_map, List.map_cons, msm_cons,
        Finset.sum_range_succ', List.map_map]
      simp only [Function.comp_def]
      rw [ih (fun k => c (Nat.succ k))]
      simp [add_comm]

theorem msm_map_range_len (c : ℕ → F) (xs : List P) (len : ℕ) (h : xs.length = len) :
    msm ((List.range len).map c) xs = ∑ k ∈ Finset.range len, c k • xs.getD k 0 := by
  subst h; exact msm_map_range c xs

theorem msm_map_range_map (c : ℕ → F) (pt : ℕ → P) (len : ℕ) :
    msm ((List.range len).map c) ((List.range len).map pt)
      = ∑ k ∈ Finset.range len, c k • pt k := by
  rw [msm_map_range_len c _ len (by simp)]
  exact Finset.sum_congr rfl fun k hk =>
    congrArg _ (getD_range_map pt len k 0 (Finset.mem_range.mp hk))

theorem msm_flatten (A : List (List F)) (B : List (List P))
    (hlen : A.length = B.length)
    (hrow : ∀ p ∈ List.zip A B, p.1.length = p.2.length) :
    msm A.flatten B.flatten = (List.zipWith (fun r g => msm r g) A B).sum := by
  induction A generalizing B with
  | nil => simp [msm]
  | cons a A' ih =>
      cases B with
      | nil => simp at hlen
      | cons b B' =>
          have ha : a.length = b.length :=
            hrow (a, b) (by simp [List.zip_cons_cons])
          simp only [List.flatten_cons]
          rw [msm_append _ _ _ _ ha, List.zipWith_cons_cons, List.sum_cons]
          congr 1
          exact ih B' (by simpa using hlen)
            (fun p hp => hrow p (by simp [List.zip_cons_cons]; right; exact hp))

theorem commit_matrix_eval (params : Params F P) (x : ℕ → ℕ → F) (rho : F)
    (hG : params.CommitmentG.length = params.m)
    (hGrow : ∀ row ∈ params.CommitmentG, row.length = params.n) :
    params.commit_matrix
      ((List.range params.m).map fun j => (List.range params.n).map fun i => x j i) rho
      = rho • params.CommitmentH +
        ∑ j ∈ Finset.range params.m, ∑ i ∈ Finset.range params.n,
          x j i • ((params.CommitmentG.getD j []).getD i 0) := by
  unfold Params.commit_matrix
  congr 1
  have hz : ∀ (CG : List (List P)) (g : ℕ → ℕ → F),
      (∀ row ∈ CG, row.length = params.n) →
      (List.zipWith (fun row grow => msm row grow)
        ((List.range CG.length).map fun j => (List.range params.n).map fun i => g j i) CG).sum
        = ∑ j ∈ Finset.range CG.length, ∑ i ∈ Finset.range params.n,
            g j i • ((CG.getD j []).getD i 0) := by
    intro CG
    induction CG with
    | nil => simp
    | cons row rest ih =>
        intro g hrows
        have hlen : (row :: rest).length = rest.length + 1 := rfl
        rw [hlen, List.range_succ_eq_map, List.map_cons, List.zipWith_cons_cons,
          List.sum_cons, Finset.sum_range_succ', List.map_map]
        simp only [Function.comp_def]
        rw [ih (fun j => g (Nat.succ j)) (fun r hr => hrows r (List.mem_cons_of_mem _ hr))]
        have hrowlen : row.length = params.n := hrows row (List.mem_cons_self _ _)
        rw [msm_map_range_len (g 0) row params.n hrowlen]
        have : ∀ j i, ((row :: rest).getD (j + 1) []).getD i 0 = (rest.getD j []).getD i 0 :=
          fun j i => rfl
        simp only [this, List.getD_cons_zero, add_comm]
  have := hz params.CommitmentG x hGrow
  rw [hG] at this
  exact this

end MsmLemmas

section XiPowersLemmas

theorem xiPowersGo_ok (xi : F) (hxi : xi ≠ 0) :
    ∀ cnt : ℕ, ∀ pw : F, pw ≠ 0 →
      xiPowersGo xi cnt pw = Except.ok ((List.range cnt).map fun t => pw * xi ^ t) := by
  intro cnt
  induction cnt with
  | zero => intro pw _; rfl
  | succ cnt ih =>
      intro pw hpw
      have hrec := ih (pw * xi) (mul_ne_zero hpw hxi)
      simp only [xiPowersGo, if_neg hpw, hrec]
      rw [List.range_succ_eq_map, List.map_cons, List.map_map]
      congr 2
      · simp
      · apply List.map_congr_left
        intro t _
        simp only [Function.comp_apply, pow_succ]
        ring

theorem xi_powers_ok (xi : F) (m : ℕ) (hxi : xi ≠ 0) :
    xi_powers xi m = Except.ok ((List.range (m + 1)).map fun t => xi ^ t) := by
  unfold xi_powers
  rw [xiPowersGo_ok xi hxi (m + 1) 1 one_ne_zero]
  congr 1
  exact List.map_congr_left fun t _ => one_mul _

theorem xi_powers_zero (m : ℕ) (hm : 1 ≤ m) :
    xi_powers (0 : F) m = Except.error ProofError.InvalidChallenge := by
  unfold xi_powers
  obtain ⟨m', rfl⟩ : ∃ m', m = m' + 1 := ⟨m - 1, by omega⟩
  simp [xiPowersGo, one_ne_zero]

theorem xiPowersGo_length (xi : F) :
    ∀ cnt : ℕ, ∀ pw : F, ∀ ys : List F,
      xiPowersGo xi cnt pw = Except.ok ys → ys.length = cnt := by
  intro cnt
  induction cnt with
  | zero =>
      intro pw ys h
      simp only [xiPowersGo] at h
      cases h; rfl
  | succ cnt ih =>
      intro pw ys h
      simp only [xiPowersGo] at h
      by_cases hpw : pw = 0
      · rw [if_pos hpw] at h; cases h
      · rw [if_neg hpw] at h
        cases hrec : xiPowersGo xi cnt (pw * xi) with
        | ok rest =>
            rw [hrec] at h
            cases h
            simp [ih (pw * xi) rest hrec]
        | error e => rw [hrec] at h; cases h

theorem xi_powers_err_iff (xi : F) (m : ℕ) (hm : 1 ≤ m) :
    xi_powers xi m = Except.error ProofError.InvalidChallenge ↔ ∃ t ≤ m, xi ^ t = 0 := by
  constructor
  · intro h
    by_cases hxi : xi = 0
    · exact ⟨1, hm, by simp [hxi]⟩
    · rw [xi_powers_ok xi m hxi] at h
      cases h
  · rintro ⟨t, ht, hpow⟩
    have hxi : xi = 0 := by
      rcases Nat.eq_zero_or_pos t with h0 | h0
      · subst h0; simp at hpow
      · exact (pow_eq_zero_iff (by omega : t ≠ 0)).mp hpow
    subst hxi
    exact xi_powers_zero m hm

theorem pow_zero_iff_exists (xi : F) (m : ℕ) (hm : 1 ≤ m) :
    (∃ t ≤ m, xi ^ t = 0) ↔ xi = 0 := by
  constructor
  · rintro ⟨t, ht, hpow⟩
    rcases Nat.eq_zero_or_pos t with h0 | h0
    · subst h0; simp at hpow
    · exact (pow_eq_zero_iff (by omega : t ≠ 0)).mp hpow
  · intro hxi
    exact ⟨1, hm, by simp [hxi]⟩

end XiPowersLemmas

section ConvolutionLemmas

open Polynomial

theorem rotr1_eq {α : Type} (l : List α) (d : α) (h : l ≠ []) :
    rotr1 l = l.getD (l.length - 1) d :: l.dropLast := by
  have hlt : l.length - 1 < l.length := by
    cases l with
    | nil => exact absurd rfl h
    | cons x xs => simp
  unfold rotr1
  rw [List.getLast?_eq_getElem?, List.getElem?_eq_getElem hlt,
    List.getD_eq_getElem _ _ hlt]

theorem rotr1_length {α : Type} (l : List α) : (rotr1 l).length = l.length := by
  cases hl : l with
  | nil => rfl
  | cons x xs =>
      rw [← hl, rotr1_eq l x (by rw [hl]; exact List.cons_ne_nil x xs)]
      simp only [List.length_cons, List.length_dropLast]
      have : l.length = xs.length + 1 := by rw [hl]; rfl
      omega

theorem rotr1_getD_zero (c : List F) (h : c ≠ []) :
    (rotr1 c).getD 0 0 = c.getD (c.length - 1) 0 := by
  rw [rotr1_eq c 0 h]; rfl

theorem rotr1_getD_succ (c : List F) (t : ℕ) (h : c ≠ []) (ht : t < c.length - 1) :
    (rotr1 c).getD (t + 1) 0 = c.getD t 0 := by
  rw [rotr1_eq c 0 h]
  show c.dropLast.getD t 0 = c.getD t 0
  have ht' : t < c.dropLast.length := by rw [List.length_dropLast]; exact ht
  have ht'' : t < c.length := by omega
  rw [List.getD_eq_getElem _ _ ht', List.getElem_dropLast, List.getD_eq_getElem _ _ ht'']

theorem cstep_length (av sv : F) (c : List F) : (cstep av sv c).length = c.length := by
  simp [cstep, rotr1_length]

theorem cstep_getD (av sv : F) (c : List F) (t : ℕ) (ht : t < c.length) :
    (cstep av sv c).getD t 0 = av * c.getD t 0 + sv * (rotr1 c).getD t 0 := by
  have hl : t < (cstep av sv c).length := by rwa [cstep_length]
  rw [List.getD_eq_getElem _ _ hl]
  simp only [cstep, List.getElem_zipWith, List.getElem_map]
  rw [List.getD_eq_getElem c 0 ht,
    List.getD_eq_getElem (rotr1 c) 0 (by rwa [rotr1_length])]

theorem lin_mul_coeff (av sv : F) (Q : Polynomial F) (t : ℕ) :
    ((C av + C sv * X) * Q).coeff t
      = av * Q.coeff t + sv * (if t = 0 then 0 else Q.coeff (t - 1)) := by
  rw [add_mul, Polynomial.coeff_add, Polynomial.coeff_C_mul, mul_assoc,
    Polynomial.coeff_C_mul]
  cases t with
  | zero => simp [Polynomial.mul_coeff_zero]
  | succ t => simp [Polynomial.coeff_X_mul]

theorem linProd_natDegree_le (av sv : ℕ → F) (c : ℕ) :
    (∏ j ∈ Finset.range c, (C (av j) + C (sv j) * X)).natDegree ≤ c := by
  refine le_trans (Polynomial.natDegree_prod_le _ _) (le_trans
    (Finset.sum_le_sum fun j _ => ?_) (by simp : ∑ _j ∈ Finset.range c, 1 ≤ c))
  refine le_trans (Polynomial.natDegree_add_le _ _) (max_le (by simp) ?_)
  exact le_trans (Polynomial.natDegree_C_mul_le _ _) Polynomial.natDegree_X_le

theorem linProd_coeff_top (av sv : ℕ → F) (c : ℕ) :
    (∏ j ∈ Finset.range c, (C (av j) + C (sv j) * X)).coeff c
      = ∏ j ∈ Finset.range c, sv j := by
  induction c with
  | zero => simp
  | succ c ih =>
      rw [Finset.prod_range_succ, mul_comm, lin_mul_coeff]
      have h0 : (∏ j ∈ Finset.range c, (C (av j) + C (sv j) * X)).coeff (c + 1) = 0 :=
        Polynomial.coeff_eq_zero_of_natDegree_lt
          (lt_of_le_of_lt (linProd_natDegree_le av sv c) (by omega))
      rw [h0, Finset.prod_range_succ, if_neg (Nat.succ_ne_zero c),
        Nat.add_sub_cancel, ih, mul_zero, zero_add, mul_comm]

theorem cstep_poly (av sv : F) (c : List F) (m : ℕ) (Q : Polynomial F)
    (hc : c.length = m + 1) (hdeg : Q.natDegree < m)
    (hco : ∀ t < m + 1, c.getD t 0 = Q.coeff t) :
    ∀ t < m + 1, (cstep av sv c).getD t 0 = ((C av + C sv * X) * Q).coeff t := by
  have hne : c ≠ [] := by
    intro h; rw [h] at hc; simp at hc
  intro t ht
  rw [cstep_getD av sv c t (by omega), lin_mul_coeff]
  congr 1
  · rw [hco t ht]
  · congr 1
    cases t with
    | zero =>
        rw [rotr1_getD_zero c hne, hc]
        simp only [Nat.add_sub_cancel, if_pos rfl]
        rw [hco m (by omega)]
        exact Polynomial.coeff_eq_zero_of_natDegree_lt hdeg
    | succ t =>
        rw [rotr1_getD_succ c t hne (by omega), hco t (by omega)]
        rfl

theorem foldl_cstep_length (av sv : ℕ → F) :
    ∀ xs : List ℕ, ∀ c : List F,
      (xs.foldl (fun cc j => cstep (av j) (sv j) cc) c).length = c.length := by
  intro xs
  induction xs with
  | nil => intro c; rfl
  | cons x rest ih =>
      intro c
      rw [List.foldl_cons, ih, cstep_length]

theorem foldl_cstep_poly (av sv : ℕ → F) (m : ℕ) :
    ∀ cnt s : ℕ, ∀ c : List F, 1 ≤ s → s + cnt = m → c.length = m + 1 →
    (∀ t < m + 1, c.getD t 0
      = (∏ j ∈ Finset.range s, (C (av j) + C (sv j) * X)).coeff t) →
    ∀ t < m + 1, ((List.range' s cnt).foldl (fun cc j => cstep (av j) (sv j) cc) c).getD t 0
      = (∏ j ∈ Finset.range m, (C (av j) + C (sv j) * X)).coeff t := by
  intro cnt
  induction cnt with
  | zero =>
      intro s c h1 h2 hlen hco
      have hs : s = m := by omega
      subst hs
      simpa using hco
  | succ cnt ih =>
      intro s c h1 h2 hlen hco
      rw [List.range'_succ]
      simp only [List.foldl_cons]
      apply ih (s + 1) (cstep (av s) (sv s) c) (by omega) (by omega)
        (by rw [cstep_length]; exact hlen)
      intro t ht
      rw [Finset.prod_range_succ, mul_comm]
      exact cstep_poly (av s) (sv s) c m _ hlen
        (lt_of_le_of_lt (linProd_natDegree_le av sv s) (by omega)) hco t ht

end ConvolutionLemmas

section ConvEval

open Polynomial

theorem oidx_range_map {α : Type} (g : ℕ → α) (len i : ℕ) (h : i < len) :
    oidx ((List.range len).map g) i = oret (g i) := by
  simp only [oidx, getElemq_range_map g len i h, oret]
  rfl

theorem aMatL_oidx2 (n m : ℕ) (rnd : ProveRand F) (j i : ℕ) (hj : j < m) (hi : i < n) :
    oidx2 (aMatL n m rnd) j i = oret (aIdx n rnd j i) := by
  unfold oidx2 aMatL
  rw [oidx_range_map _ m j hj, obind_oret, oidx_range_map _ n i hi]

theorem sMatL_oidx2 (n m l : ℕ) (j i : ℕ) (hj : j < m) (hi : i < n) :
    oidx2 (sMatL n m l : List (List F)) j i = oret (sIdx n m l j i) := by
  unfold oidx2 sMatL
  rw [oidx_range_map _ m j hj, obind_oret, oidx_range_map _ n i hi]

theorem convCoeffs_eval (n m l k : ℕ) (rnd : ProveRand F) (hn : 0 < n) (hm : 1 ≤ m) :
    convCoeffs (aMatL n m rnd) (sMatL n m l) (natDigits n k m) m
      = oret (pRowL n m l rnd k) := by
  unfold convCoeffs
  rw [oidx_getD (natDigits n k m) 0 0 (by rw [natDigits_length]; omega), obind_oret,
    aMatL_oidx2 n m rnd 0 _ (by omega) (natDigits_getD_lt n k m 0 hn (by omega)),
    obind_oret,
    sMatL_oidx2 n m l 0 _ (by omega) (natDigits_getD_lt n k m 0 hn (by omega)),
    obind_oret]
  rw [oset, if_pos (by simp), obind_oret, oset, if_pos (by simp; omega), obind_oret]
  rw [ofoldM_oret (List.range' 1 (m - 1)) _
    (fun cc j => cstep (aIdx n rnd j ((natDigits n k m).getD j 0))
      (sIdx n m l j ((natDigits n k m).getD j 0)) cc)
    (convStep (aMatL n m rnd) (sMatL n m l) (natDigits n k m)) ?_]
  · rfl
  · intro cc j hj
    obtain ⟨hj1, hj2⟩ := List.mem_range'_1.mp hj
    have hjm : j < m := by omega
    unfold convStep
    rw [oidx_getD (natDigits n k m) j 0 (by rw [natDigits_length]; exact hjm), obind_oret,
      aMatL_oidx2 n m rnd j _ hjm (natDigits_getD_lt n k m j hn hjm), obind_oret,
      sMatL_oidx2 n m l j _ hjm (natDigits_getD_lt n k m j hn hjm), obind_oret]
    rfl

theorem pRowL_length (n m l k : ℕ) (rnd : ProveRand F) :
    (pRowL n m l rnd k : List F).length = m + 1 := by
  unfold pRowL
  rw [foldl_cstep_length]
  simp

theorem pRowL_coeff (n m l k : ℕ) (rnd : ProveRand F) (hn : 0 < n) (hm : 1 ≤ m) :
    ∀ t < m + 1, (pRowL n m l rnd k).getD t 0
      = (∏ j ∈ Finset.range m, (C (aIdx n rnd j ((natDigits n k m).getD j 0))
          + C (sIdx n m l j ((natDigits n k m).getD j 0)) * X)).coeff t := by
  unfold pRowL
  apply foldl_cstep_poly _ _ m (m - 1) 1 _ le_rfl (by omega) (by simp)
  intro t ht
  have h1 : (C (aIdx n rnd 0 ((natDigits n k m).getD 0 0))
      + C (sIdx n m l 0 ((natDigits n k m).getD 0 0)) * X : Polynomial F)
      = (C (aIdx n rnd 0 ((natDigits n k m).getD 0 0))
        + C (sIdx n m l 0 ((natDigits n k m).getD 0 0)) * X) * 1 := by ring
  rw [Finset.prod_range_one, h1, lin_mul_coeff]
  rw [List.getD_eq_getElem _ _ (by simp; omega)]
  rw [List.getElem_set, List.getElem_set, List.getElem_replicate]
  rcases t with _ | _ | t <;> simp [Polynomial.coeff_one]

theorem pRowL_top (n m l k : ℕ) (rnd : ProveRand F) (hn : 0 < n) (hm : 1 ≤ m)
    (hk : k < n ^ m) (hl : l < n ^ m) :
    (pRowL n m l rnd k : List F).getD m 0 = if k = l then 1 else 0 := by
  rw [pRowL_coeff n m l k rnd hn hm m (by omega), linProd_coeff_top]
  have hc : ∀ j ∈ Finset.range m, (sIdx n m l j ((natDigits n k m).getD j 0) : F)
      = delta ((natDigits n l m).getD j 0) ((natDigits n k m).getD j 0) := fun j _ => rfl
  rw [Finset.prod_congr rfl hc, delta_digit_prod n m k l hn hk hl]

theorem pRowL_eval (n m l k : ℕ) (rnd : ProveRand F) (hn : 0 < n) (hm : 1 ≤ m) (ξ : F) :
    ∑ t ∈ Finset.range (m + 1), (pRowL n m l rnd k).getD t 0 * ξ ^ t
      = ∏ j ∈ Finset.range m, (sIdx n m l j ((natDigits n k m).getD j 0) * ξ
          + aIdx n rnd j ((natDigits n k m).getD j 0)) := by
  have hco := pRowL_coeff n m l k rnd hn hm
  calc ∑ t ∈ Finset.range (m + 1), (pRowL n m l rnd k).getD t 0 * ξ ^ t
      = ∑ t ∈ Finset.range (m + 1),
          (∏ j ∈ Finset.range m, (C (aIdx n rnd j ((natDigits n k m).getD j 0))
            + C (sIdx n m l j ((natDigits n k m).getD j 0)) * X)).coeff t * ξ ^ t :=
        Finset.sum_congr rfl fun t ht => by rw [hco t (Finset.mem_range.mp ht)]
    _ = (∏ j ∈ Finset.range m, (C (aIdx n rnd j ((natDigits n k m).getD j 0))
          + C (sIdx n m l j ((natDigits n k m).getD j 0)) * X)).eval ξ :=
        (Polynomial.eval_eq_sum_range'
          (lt_of_le_of_lt (linProd_natDegree_le _ _ m) (by omega)) ξ).symm
    _ = ∏ j ∈ Finset.range m, (aIdx n rnd j ((natDigits n k m).getD j 0)
          + sIdx n m l j ((natDigits n k m).getD j 0) * ξ) := by
        rw [Polynomial.eval_prod]
        exact Finset.prod_congr rfl fun j _ => by simp
    _ = ∏ j ∈ Finset.range m, (sIdx n m l j ((natDigits n k m).getD j 0) * ξ
          + aIdx n rnd j ((natDigits n k m).getD j 0)) :=
        Finset.prod_congr rfl fun j _ => by ring

end ConvEval

/-- The matrix `a ⊙ (1 − 2σ)` committed in `C`. -/
def csMatL (n m l : ℕ) (rnd : ProveRand F) : List (List F) :=
  (List.range m).map fun j => (List.range n).map fun i =>
    aIdx n rnd j i * (1 - 2 * sIdx n m l j i)

/-- The matrix `−a ⊙ a` committed in `D`. -/
def sqMatL (n m : ℕ) (rnd : ProveRand F) : List (List F) :=
  (List.range m).map fun j => (List.range n).map fun i =>
    -aIdx n rnd j i * aIdx n rnd j i

/-- The stored `f` matrix of an honest proof: columns `1 ≤ i < n`. -/
def fMatL (n m l : ℕ) (rnd : ProveRand F) (ξ : F) : List (List F) :=
  (List.range m).map fun j => (List.range' 1 (n - 1)).map fun i =>
    sIdx n m l j i * ξ + aIdx n rnd j i

/-- The proof value `Proof::prove` returns on the honest path, as a function
of the drawn challenge `ξ`. -/
def proofVal (stmt : Statement F P) (l : ℕ) (r : F) (rnd : ProveRand F) (ξ : F) :
    Proof F P :=
  { A := stmt.params.commit_matrix (aMatL stmt.params.n stmt.params.m rnd) rnd.r_A
    B := stmt.params.commit_matrix (sMatL stmt.params.n stmt.params.m l) rnd.r_B
    C := stmt.params.commit_matrix (csMatL stmt.params.n stmt.params.m l rnd) rnd.r_C
    D := stmt.params.commit_matrix (sqMatL stmt.params.n stmt.params.m rnd) rnd.r_D
    X := XvalL stmt.params l rnd stmt.input_set.keys
    Y := YvalL stmt.params.m rnd stmt.J
    f := fMatL stmt.params.n stmt.params.m l rnd ξ
    z_A := rnd.r_A + ξ * rnd.r_B
    z_C := ξ * rnd.r_C + rnd.r_D
    z := r * ξ ^ stmt.params.m - ∑ j ∈ Finset.range stmt.params.m, rnd.rho j * ξ ^ j }

/-- The challenge the prover draws: the oracle applied to the prover's
transcript, whose absorbed elements do not depend on the challenge. -/
def proveChal (stmt : Statement F P) (message : Option (List ℕ)) (l : ℕ)
    (rnd : ProveRand F) (chal : List (TEntry P) → F) : F :=
  chal (proveTranscript stmt message
    (stmt.params.commit_matrix (aMatL stmt.params.n stmt.params.m rnd) rnd.r_A)
    (stmt.params.commit_matrix (sMatL stmt.params.n stmt.params.m l) rnd.r_B)
    (stmt.params.commit_matrix (csMatL stmt.params.n stmt.params.m l rnd) rnd.r_C)
    (stmt.params.commit_matrix (sqMatL stmt.params.n stmt.params.m rnd) rnd.r_D)
    (XvalL stmt.params l rnd stmt.input_set.keys)
    (YvalL stmt.params.m rnd stmt.J))

section ProveEval

theorem okOrInvalid_some {α : Type} (a : α) : okOrInvalid (some a) = oret a := rfl

theorem okOrInvalid_none {α : Type} :
    okOrInvalid (none : Option α) = othrow ProofError.InvalidParameter := rfl

theorem decompose_lt (params : Params F P) (k : ℕ) (h : k < params.N) :
    params.decompose k = some (natDigits params.n k params.m) := if_pos h

theorem omapM_map {α β γ : Type} (xs : List α) (h : α → β)
    (f : β → Option (Except ProofError γ)) :
    omapM (xs.map h) f = omapM xs fun x => f (h x) := by
  induction xs with
  | nil => rfl
  | cons x rest ih => simp only [List.map_cons, omapM, ih]

theorem aRow_eq (n : ℕ) (rnd : ProveRand F) (j : ℕ) (hn : 1 ≤ n) :
    (((List.range n).map fun i => rnd.aInit j i).set 0
        (-((((List.range n).map fun i => rnd.aInit j i).drop 1).sum)))
      = (List.range n).map fun i => aIdx n rnd j i := by
  obtain ⟨n', rfl⟩ : ∃ n', n = n' + 1 := ⟨n - 1, by omega⟩
  rw [List.range_succ_eq_map, List.map_cons, List.map_map]
  simp only [Function.comp_def, List.set_cons_zero, List.drop_succ_cons, List.drop_zero]
  congr 1
  rw [List.map_map]
  simp only [Function.comp_def]
  exact (List.map_congr_left fun t _ => by simp [aIdx]).symm

theorem aMat_step (n m : ℕ) (rnd : ProveRand F) (hn : 1 ≤ n) :
    omapM ((List.range m).map fun j => (List.range n).map fun i => rnd.aInit j i)
      (fun row => oset row 0 (-((row.drop 1).sum)))
      = oret (aMatL n m rnd) := by
  rw [omapM_map]
  refine omapM_oret _ (fun j => (List.range n).map fun i => aIdx n rnd j i) _
    (fun j hj => ?_)
  rw [oset, if_pos (by simp; omega)]
  rw [aRow_eq n rnd j hn]

theorem sMat_step (n m l : ℕ) :
    omapM (List.range m) (fun j =>
      omapM (List.range n) fun i =>
        obind (oidx (natDigits n l m) j) fun d => oret (delta d i))
      = oret (sMatL n m l : List (List F)) := by
  refine omapM_oret _ (fun j => (List.range n).map fun i => sIdx n m l j i) _
    (fun j hj => ?_)
  have hj' : j < m := List.mem_range.mp hj
  refine omapM_oret _ (fun i => sIdx n m l j i) _ (fun i hi => ?_)
  rw [oidx_getD (natDigits n l m) j 0 (by rw [natDigits_length]; exact hj'), obind_oret]
  rfl

theorem csMat_step (n m l : ℕ) (rnd : ProveRand F) :
    omapM (List.range m) (fun j =>
      omapM (List.range n) fun i =>
        obind (oidx2 (aMatL n m rnd) j i) fun aji =>
        obind (oidx2 (sMatL n m l) j i) fun sji =>
        oret (aji * (1 - (2 : F) * sji)))
      = oret (csMatL n m l rnd) := by
  refine omapM_oret _ (fun j => (List.range n).map fun i =>
    aIdx n rnd j i * (1 - 2 * sIdx n m l j i)) _ (fun j hj => ?_)
  have hj' : j < m := List.mem_range.mp hj
  refine omapM_oret _ _ _ (fun i hi => ?_)
  have hi' : i < n := List.mem_range.mp hi
  rw [aMatL_oidx2 n m rnd j i hj' hi', obind_oret,
    sMatL_oidx2 n m l j i hj' hi', obind_oret]

theorem sqMat_step (n m l : ℕ) (rnd : ProveRand F) :
    omapM (List.range m) (fun j =>
      omapM (List.range n) fun i =>
        obind (oidx2 (aMatL n m rnd) j i) fun aji => oret (-aji * aji))
      = oret (sqMatL n m rnd : List (List F)) := by
  refine omapM_oret _ (fun j => (List.range n).map fun i =>
    -aIdx n rnd j i * aIdx n rnd j i) _ (fun j hj => ?_)
  have hj' : j < m := List.mem_range.mp hj
  refine omapM_oret _ _ _ (fun i hi => ?_)
  have hi' : i < n := List.mem_range.mp hi
  rw [aMatL_oidx2 n m rnd j i hj' hi', obind_oret]

theorem pMat_step (params : Params F P) (l : ℕ) (rnd : ProveRand F)
    (hn : 0 < params.n) (hm : 1 ≤ params.m) :
    omapM (List.range params.N) (fun k =>
      obind (okOrInvalid (params.decompose k)) fun k_decomposed =>
      convCoeffs (aMatL params.n params.m rnd) (sMatL params.n params.m l)
        k_decomposed params.m)
      = oret ((List.range params.N).map fun k => pRowL params.n params.m l rnd k) := by
  refine omapM_oret _ (fun k => pRowL params.n params.m l rnd k) _ (fun k hk => ?_)
  rw [decompose_lt params k (List.mem_range.mp hk), okOrInvalid_some, obind_oret,
    convCoeffs_eval params.n params.m l k rnd hn hm]

theorem enum_range_map {α : Type} (g : ℕ → α) (m : ℕ) :
    ((List.range m).map g).enum = (List.range m).map fun j => (j, g j) := by
  rw [List.enum_eq_zip_range, List.length_map, List.length_range]
  have : List.range m = (List.range m).map id := by simp
  calc (List.range m).zip ((List.range m).map g)
      = ((List.range m).map id).zip ((List.range m).map g) := by rw [← this]
    _ = (List.range m).map fun j => (id j, g j) := List.zip_map' id g (List.range m)
    _ = (List.range m).map fun j => (j, g j) := rfl

theorem X_step (params : Params F P) (l : ℕ) (rnd : ProveRand F) (keys : List P) :
    omapM (((List.range params.m).map fun j => rnd.rho j).enum) (fun je =>
      obind (omapM ((List.range params.N).map fun k => pRowL params.n params.m l rnd k)
        fun pk => oidx pk je.1) fun pj =>
      oret (msm (pj ++ [je.2]) (keys ++ [params.Gg])))
      = oret (XvalL params l rnd keys) := by
  rw [enum_range_map, omapM_map]
  refine omapM_oret _ (fun j =>
    msm ((((List.range params.N).map fun k =>
      (pRowL params.n params.m l rnd k).getD j 0)) ++ [rnd.rho j])
      (keys ++ [params.Gg])) _ (fun j hj => ?_)
  have hj' : j < params.m := List.mem_range.mp hj
  show obind (omapM _ _) _ = _
  rw [omapM_map, omapM_oret _ (fun k => (pRowL params.n params.m l rnd k).getD j 0) _
    (fun k hk => oidx_getD _ j 0 (by rw [pRowL_length]; omega)), obind_oret]

theorem f_step (n m l : ℕ) (rnd : ProveRand F) (ξ : F) (hm : 1 ≤ m) :
    omapM (List.range m) (fun j =>
      omapM (List.range' 1 (n - 1)) fun i =>
        obind (oidx2 (sMatL n m l) j i) fun sji =>
        obind (oidx ((List.range (m + 1)).map fun t => ξ ^ t) 1) fun xi1 =>
        obind (oidx2 (aMatL n m rnd) j i) fun aji =>
        oret (sji * xi1 + aji))
      = oret (fMatL n m l rnd ξ) := by
  refine omapM_oret _ (fun j => (List.range' 1 (n - 1)).map fun i =>
    sIdx n m l j i * ξ + aIdx n rnd j i) _ (fun j hj => ?_)
  have hj' : j < m := List.mem_range.mp hj
  refine omapM_oret _ _ _ (fun i hi => ?_)
  obtain ⟨hi1, hi2⟩ := List.mem_range'_1.mp hi
  have hi' : i < n := by omega
  rw [sMatL_oidx2 n m l j i hj' hi', obind_oret,
    oidx_range_map (fun t => ξ ^ t) (m + 1) 1 (by omega), obind_oret,
    aMatL_oidx2 n m rnd j i hj' hi', obind_oret, pow_one]

theorem zipWith_rho_pows (m : ℕ) (g : ℕ → F) (ξ : F) :
    (List.zipWith (fun rhoj xp => rhoj * xp) ((List.range m).map g)
      ((List.range (m + 1)).map fun t => ξ ^ t)).sum
      = ∑ j ∈ Finset.range m, g j * ξ ^ j := by
  rw [List.range_succ, List.map_append, ← List.append_nil ((List.range m).map g),
    List.zipWith_append _ _ _ _ _ (by simp), List.zipWith_nil_left, List.append_nil,
    List.zipWith_map, List.zipWith_same, list_sum_range_map]

theorem prove_eval (w : Witness F P) (stmt : Statement F P) (message : Option (List ℕ))
    (rnd : ProveRand F) (chal : List (TEntry P) → F)
    (hv : stmt.params.Valid) (hparams : w.params = stmt.params)
    (hM : stmt.input_set.keys[w.l]? = some (w.r • stmt.params.Gg))
    (hJ : w.r • stmt.J = stmt.params.U) :
    Proof.prove w stmt message rnd chal =
      some (if proveChal stmt message w.l rnd chal = 0
            then Except.error ProofError.InvalidChallenge
            else Except.ok (proofVal stmt w.l w.r rnd
              (proveChal stmt message w.l rnd chal))) := by
  obtain ⟨hn, hm, hG, hGrow⟩ := hv
  simp only [Proof.prove, proveChal, proofVal]
  rw [if_neg (not_not_intro hparams)]
  rw [hM, okOrInvalid_some, obind_oret]
  rw [if_neg (not_not_intro rfl), if_neg (not_not_intro hJ)]
  rw [aMat_step stmt.params.n stmt.params.m rnd (by omega), obind_oret]
  rw [decompose_lt stmt.params w.l (hparams ▸ w.hl), okOrInvalid_some, obind_oret]
  rw [sMat_step stmt.params.n stmt.params.m w.l, obind_oret]
  rw [csMat_step stmt.params.n stmt.params.m w.l rnd, obind_oret]
  rw [sqMat_step stmt.params.n stmt.params.m w.l rnd, obind_oret]
  rw [pMat_step stmt.params w.l rnd (by omega) (by omega), obind_oret]
  rw [X_step stmt.params w.l rnd stmt.input_set.keys, obind_oret]
  rw [List.map_map]
  simp only [Function.comp_def]
  have hY : ((List.range stmt.params.m).map fun x => rnd.rho x • stmt.J)
      = YvalL stmt.params.m rnd stmt.J := rfl
  rw [hY]
  by_cases hxi : chal (proveTranscript stmt message
      (stmt.params.commit_matrix (aMatL stmt.params.n stmt.params.m rnd) rnd.r_A)
      (stmt.params.commit_matrix (sMatL stmt.params.n stmt.params.m w.l) rnd.r_B)
      (stmt.params.commit_matrix (csMatL stmt.params.n stmt.params.m w.l rnd) rnd.r_C)
      (stmt.params.commit_matrix (sqMatL stmt.params.n stmt.params.m rnd) rnd.r_D)
      (XvalL stmt.params w.l rnd stmt.input_set.keys)
      (YvalL stmt.params.m rnd stmt.J)) = 0
  · rw [if_pos hxi, hxi, xi_powers_zero stmt.params.m (by omega)]
    rfl
  · rw [if_neg hxi, xi_powers_ok _ stmt.params.m hxi]
    show obind (oret _) _ = _
    rw [obind_oret]
    rw [f_step stmt.params.n stmt.params.m w.l rnd _ (by omega), obind_oret]
    rw [oidx_range_map _ (stmt.params.m + 1) 1 (by omega), obind_oret]
    rw [oidx_range_map _ (stmt.params.m + 1) stmt.params.m (by omega), obind_oret]
    rw [zipWith_rho_pows, pow_one]
    rfl

end ProveEval

/-! Closed forms of the values the verifier computes. -/

/-- The verifier's fully reconstructed `f` matrix: `m` rows, each with the
reconstructed column 0 in front of the stored row. -/
def fRebuildL (m : ℕ) (proof : Proof F P) (ξ : F) : List (List F) :=
  (List.range m).map fun j => fRebuild ξ (proof.f.getD j [])

/-- The verifier's `M` scalars: for each `k`, the product `Π_j f[j][d_j(k)]`
over the reconstructed matrix. -/
def mScalarsL (params : Params F P) (proof : Proof F P) (ξ : F) : List F :=
  (List.range params.N).map fun k =>
    ((List.range params.m).map fun j =>
      ((fRebuildL params.m proof ξ).getD j []).getD
        ((natDigits params.n k params.m).getD j 0) 0).prod

/-- The verifier's assembled scalar vector, in the order of the point list. -/
def verifyScalars (params : Params F P) (proof : Proof F P) (ξ w1 w2 w4 : F) :
    List F :=
  [-proof.z] ++
  ((fRebuildL params.m proof ξ).map fun f_row =>
    f_row.map fun f_item => w1 * f_item + w2 * f_item * (ξ - f_item)).flatten ++
  [w1 * proof.z_A + w2 * proof.z_C] ++
  [-w1, -w1 * ξ, -w2 * ξ, -w2] ++
  [-w4 * proof.z] ++
  ((List.range params.m).map fun t => -ξ ^ t) ++
  ((List.range params.m).map fun t => -w4 * ξ ^ t) ++
  mScalarsL params proof ξ ++
  [w4 * (mScalarsL params proof ξ).sum]

/-- The verifier's point list. -/
def verifyPoints (stmt : Statement F P) (proof : Proof F P) : List P :=
  [stmt.params.Gg] ++ stmt.params.CommitmentG.flatten ++
  [stmt.params.CommitmentH, proof.A, proof.B, proof.C, proof.D, stmt.J] ++
  proof.X ++ proof.Y ++ stmt.input_set.keys ++ [stmt.params.U]

section VerifyEval

theorem verify_zero_chal (proof : Proof F P) (stmt : Statement F P)
    (message : Option (List ℕ)) (w1 w2 w4 : F) (chal : List (TEntry P) → F)
    (hm : 1 ≤ stmt.params.m)
    (hxi : chal (verifyTranscript stmt message
      proof.A proof.B proof.C proof.D proof.X proof.Y) = 0) :
    Proof.verify proof stmt message w1 w2 w4 chal = some false := by
  simp only [Proof.verify]
  rw [hxi, xi_powers_zero stmt.params.m hm, withOk_error]

theorem verify_eval (proof : Proof F P) (stmt : Statement F P)
    (message : Option (List ℕ)) (w1 w2 w4 : F) (chal : List (TEntry P) → F)
    (hn : 0 < stmt.params.n) (hm : 1 ≤ stmt.params.m)
    (hf : stmt.params.m ≤ proof.f.length)
    (hrows : ∀ row ∈ proof.f, stmt.params.n - 1 ≤ row.length)
    (hxi : chal (verifyTranscript stmt message
      proof.A proof.B proof.C proof.D proof.X proof.Y) ≠ 0) :
    Proof.verify proof stmt message w1 w2 w4 chal
      = some (decide (msm
          (verifyScalars stmt.params proof
            (chal (verifyTranscript stmt message
              proof.A proof.B proof.C proof.D proof.X proof.Y)) w1 w2 w4)
          (verifyPoints stmt proof) = 0)) := by
  simp only [Proof.verify, verifyScalars, verifyPoints, mScalarsL, fRebuildL]
  rw [xi_powers_ok _ _ hxi, withOk_ok,
    getElemq_range_map _ (stmt.params.m + 1) 1 (by omega), withSome_some, pow_one]
  set XI := chal (verifyTranscript stmt message
    proof.A proof.B proof.C proof.D proof.X proof.Y) with hXI
  have hfl : optionMapM (List.range stmt.params.m)
      (fun j => (proof.f[j]?).map fun fj => fRebuild XI fj)
      = some ((List.range stmt.params.m).map fun j => fRebuild XI (proof.f.getD j [])) := by
    refine optionMapM_some _ (fun j => fRebuild XI (proof.f.getD j [])) _ (fun j hj => ?_)
    have hj' : j < proof.f.length := lt_of_lt_of_le (List.mem_range.mp hj) hf
    rw [List.getElem?_eq_getElem hj']
    show some (fRebuild XI (proof.f[j])) = some (fRebuild XI (proof.f.getD j []))
    rw [List.getD_eq_getElem _ _ hj']
  rw [hfl, withSome_some]
  have hms : omapM (List.range stmt.params.N) (fun k =>
      obind (okOrInvalid (stmt.params.decompose k)) fun k_decomposed =>
      obind (omapM (List.range stmt.params.m) fun j =>
        obind (oidx ((List.range stmt.params.m).map fun j' =>
          fRebuild XI (proof.f.getD j' [])) j) fun frow =>
        obind (oidx k_decomposed j) fun dj =>
        oidx frow dj) fun fs =>
      oret fs.prod)
      = oret ((List.range stmt.params.N).map fun k =>
          ((List.range stmt.params.m).map fun j =>
            (((List.range stmt.params.m).map fun j' =>
              fRebuild XI (proof.f.getD j' [])).getD j []).getD
              ((natDigits stmt.params.n k stmt.params.m).getD j 0) 0).prod) := by
    refine omapM_oret _ _ _ (fun k hk => ?_)
    rw [decompose_lt stmt.params k (List.mem_range.mp hk), okOrInvalid_some, obind_oret]
    rw [omapM_oret _ (fun j =>
      (((List.range stmt.params.m).map fun j' =>
        fRebuild XI (proof.f.getD j' [])).getD j []).getD
        ((natDigits stmt.params.n k stmt.params.m).getD j 0) 0) _ (fun j hj => ?_),
      obind_oret]
    have hj' : j < stmt.params.m := List.mem_range.mp hj
    rw [oidx_range_map _ stmt.params.m j hj', obind_oret,
      oidx_getD _ j 0 (by rw [natDigits_length]; exact hj'), obind_oret]
    have hrow : stmt.params.n - 1 ≤ (proof.f.getD j []).length := by
      have hjf : j < proof.f.length := lt_of_lt_of_le hj' hf
      rw [List.getD_eq_getElem _ _ hjf]
      exact hrows _ (List.getElem_mem _)
    have hdig : (natDigits stmt.params.n k stmt.params.m).getD j 0
        < (fRebuild XI (proof.f.getD j [])).length := by
      have := natDigits_getD_lt stmt.params.n k stmt.params.m j hn hj'
      simp only [fRebuild, List.length_cons]
      omega
    rw [oidx_getD _ _ 0 hdig]
    simp only [getD_range_map _ stmt.params.m j ([] : List F) hj']
  rw [hms, withOk3_oret]
  rw [← List.map_take, List.take_range, min_eq_left (by omega)]
  simp only [List.map_map, Function.comp_def]

end VerifyEval

section Completeness

theorem msm_singleton (c : F) (pt : P) : msm [c] [pt] = c • pt := by
  simp [msm]

theorem flatten_length_const {α : Type} (L : List (List α)) (n : ℕ)
    (h : ∀ row ∈ L, row.length = n) : L.flatten.length = L.length * n := by
  induction L with
  | nil => simp
  | cons row rest ih =>
      rw [List.flatten_cons, List.length_append, h row (List.mem_cons_self _ _),
        ih (fun r hr => h r (List.mem_cons_of_mem _ hr))]
      simp [Nat.succ_mul, Nat.add_comm]

theorem range_map_cons {α : Type} (g : ℕ → α) (n : ℕ) (hn : 1 ≤ n) :
    (List.range n).map g = g 0 :: (List.range' 1 (n - 1)).map g := by
  obtain ⟨c, rfl⟩ : ∃ c, n = c + 1 := ⟨n - 1, by omega⟩
  rw [List.range_eq_range', List.range'_succ, List.map_cons, Nat.add_sub_cancel]

theorem sum_range'_map (g : ℕ → F) (s c : ℕ) :
    ((List.range' s c).map g).sum = ∑ t ∈ Finset.range c, g (s + t) := by
  induction c generalizing s with
  | zero => simp
  | succ c ih =>
      rw [List.range'_succ, List.map_cons, List.sum_cons, ih (s + 1),
        Finset.sum_range_succ']
      rw [add_comm]
      congr 1
      exact Finset.sum_congr rfl fun t _ => by rw [Nat.add_assoc, Nat.add_comm 1 t]

theorem aIdx_row_sum (n : ℕ) (rnd : ProveRand F) (j : ℕ) (hn : 1 ≤ n) :
    ∑ i ∈ Finset.range n, aIdx n rnd j i = 0 := by
  obtain ⟨c, rfl⟩ : ∃ c, n = c + 1 := ⟨n - 1, by omega⟩
  rw [Finset.sum_range_succ']
  have h1 : ∀ i ∈ Finset.range c, aIdx (c + 1) rnd j (i + 1) = rnd.aInit j (i + 1) :=
    fun i _ => by simp [aIdx]
  rw [Finset.sum_congr rfl h1]
  simp [aIdx]

theorem sIdx_row_sum (n m l j : ℕ) (hn : 0 < n) (hj : j < m) :
    ∑ i ∈ Finset.range n, (sIdx n m l j i : F) = 1 := by
  have hd : (natDigits n l m).getD j 0 < n := natDigits_getD_lt n l m j hn hj
  unfold sIdx delta
  rw [Finset.sum_ite_eq (Finset.range n) ((natDigits n l m).getD j 0) (fun _ => (1 : F))]
  rw [if_pos (Finset.mem_range.mpr hd)]

theorem fF_row_sum (n m l j : ℕ) (rnd : ProveRand F) (ξ : F) (hn : 0 < n) (hj : j < m) :
    ∑ i ∈ Finset.range n, (sIdx n m l j i * ξ + aIdx n rnd j i) = ξ := by
  rw [Finset.sum_add_distrib, ← Finset.sum_mul, sIdx_row_sum n m l j hn hj,
    aIdx_row_sum n rnd j (by omega), one_mul, add_zero]

/-- The verifier's reconstruction of the honest `f` matrix gives the full
honest rows. -/
theorem honest_fRebuildL (stmt : Statement F P) (l : ℕ) (r : F) (rnd : ProveRand F)
    (ξ : F) (hn : 0 < stmt.params.n) (hm : 1 ≤ stmt.params.m) :
    fRebuildL stmt.params.m (proofVal stmt l r rnd ξ) ξ
      = (List.range stmt.params.m).map fun j => (List.range stmt.params.n).map fun i =>
          sIdx stmt.params.n stmt.params.m l j i * ξ + aIdx stmt.params.n rnd j i := by
  unfold fRebuildL
  refine List.map_congr_left fun j hj => ?_
  have hj' : j < stmt.params.m := List.mem_range.mp hj
  have hrow : (proofVal stmt l r rnd ξ).f.getD j []
      = (List.range' 1 (stmt.params.n - 1)).map fun i =>
          sIdx stmt.params.n stmt.params.m l j i * ξ + aIdx stmt.params.n rnd j i := by
    show (fMatL stmt.params.n stmt.params.m l rnd ξ).getD j [] = _
    unfold fMatL
    rw [getD_range_map _ stmt.params.m j [] hj']
  rw [hrow, range_map_cons _ stmt.params.n (by omega)]
  unfold fRebuild
  congr 1
  rw [sum_range'_map]
  have hsum : ∑ t ∈ Finset.range (stmt.params.n - 1),
      (sIdx stmt.params.n stmt.params.m l j (1 + t) * ξ
        + aIdx stmt.params.n rnd j (1 + t))
      = ξ - (sIdx stmt.params.n stmt.params.m l j 0 * ξ + aIdx stmt.params.n rnd j 0) := by
    have hfull := fF_row_sum stmt.params.n stmt.params.m l j rnd ξ hn hj'
    obtain ⟨c, hc⟩ : ∃ c, stmt.params.n = c + 1 := ⟨stmt.params.n - 1, by omega⟩
    rw [hc] at hfull ⊢
    rw [Finset.sum_range_succ'] at hfull
    have : ∀ t ∈ Finset.range c,
        sIdx (c + 1) stmt.params.m l j (1 + t) * ξ + aIdx (c + 1) rnd j (1 + t)
          = sIdx (c + 1) stmt.params.m l j (t + 1) * ξ + aIdx (c + 1) rnd j (t + 1) :=
      fun t _ => by rw [Nat.add_comm 1 t]
    rw [Nat.add_sub_cancel, Finset.sum_congr rfl this]
    linear_combination hfull
  rw [hsum]
  ring

/-- The honest `M` scalars are the polynomial evaluations `p_k(ξ)`. -/
theorem honest_mScalarsL (stmt : Statement F P) (l : ℕ) (r : F) (rnd : ProveRand F)
    (ξ : F) (hn : 0 < stmt.params.n) (hm : 1 ≤ stmt.params.m) :
    mScalarsL stmt.params (proofVal stmt l r rnd ξ) ξ
      = (List.range stmt.params.N).map fun k =>
          ∑ t ∈ Finset.range (stmt.params.m + 1),
            (pRowL stmt.params.n stmt.params.m l rnd k).getD t 0 * ξ ^ t := by
  unfold mScalarsL
  refine List.map_congr_left fun k hk => ?_
  rw [honest_fRebuildL stmt l r rnd ξ hn hm]
  rw [list_prod_range_map, pRowL_eval stmt.params.n stmt.params.m l k rnd hn hm ξ]
  refine Finset.prod_congr rfl fun j hj => ?_
  have hj' : j < stmt.params.m := Finset.mem_range.mp hj
  rw [getD_range_map _ stmt.params.m j [] hj',
    getD_range_map _ stmt.params.n _ 0
      (natDigits_getD_lt stmt.params.n k stmt.params.m j hn hj')]

/-- The honest `M` scalars sum to `ξ^m`. -/
theorem honest_mSum (stmt : Statement F P) (l : ℕ) (rnd : ProveRand F)
    (ξ : F) (hn : 0 < stmt.params.n) (hm : 1 ≤ stmt.params.m) :
    (((List.range stmt.params.N).map fun k =>
        ∑ t ∈ Finset.range (stmt.params.m + 1),
          (pRowL stmt.params.n stmt.params.m l rnd k).getD t 0 * ξ ^ t) : List F).sum
      = ξ ^ stmt.params.m := by
  rw [list_sum_range_map]
  have hterm : ∀ k ∈ Finset.range stmt.params.N,
      ∑ t ∈ Finset.range (stmt.params.m + 1),
        (pRowL stmt.params.n stmt.params.m l rnd k).getD t 0 * ξ ^ t
      = ∏ j ∈ Finset.range stmt.params.m,
          (sIdx stmt.params.n stmt.params.m l j
            ((natDigits stmt.params.n k stmt.params.m).getD j 0) * ξ
           + aIdx stmt.params.n rnd j
            ((natDigits stmt.params.n k stmt.params.m).getD j 0)) :=
    fun k _ => pRowL_eval stmt.params.n stmt.params.m l k rnd hn hm ξ
  rw [Finset.sum_congr rfl hterm]
  have hN : stmt.params.N = stmt.params.n ^ stmt.params.m := rfl
  rw [hN]
  rw [digit_prod_sum stmt.params.n stmt.params.m hn
    (fun j i => sIdx stmt.params.n stmt.params.m l j i * ξ + aIdx stmt.params.n rnd j i)]
  have hrow : ∀ j ∈ Finset.range stmt.params.m,
      ∑ i ∈ Finset.range stmt.params.n,
        (sIdx stmt.params.n stmt.params.m l j i * ξ + aIdx stmt.params.n rnd j i) = ξ :=
    fun j hj => fF_row_sum stmt.params.n stmt.params.m l j rnd ξ hn (Finset.mem_range.mp hj)
  rw [Finset.prod_congr rfl hrow, Finset.prod_const, Finset.card_range]

theorem sum_zipWith_msm (B : List (List P)) (rowf : ℕ → ℕ → F) (n m : ℕ)
    (hB : B.length = m) (hrows : ∀ row ∈ B, row.length = n) :
    (List.zipWith (fun row grow => msm row grow)
      ((List.range m).map fun j => (List.range n).map fun i => rowf j i) B).sum
      = ∑ j ∈ Finset.range m, ∑ i ∈ Finset.range n,
          rowf j i • ((B.getD j []).getD i 0) := by
  subst hB
  induction B generalizing rowf with
  | nil => simp
  | cons row rest ih =>
      have hlen : (row :: rest).length = rest.length + 1 := rfl
      rw [hlen, List.range_succ_eq_map, List.map_cons, List.zipWith_cons_cons,
        List.sum_cons, Finset.sum_range_succ', List.map_map]
      simp only [Function.comp_def]
      rw [ih (fun j => rowf (Nat.succ j)) (fun r hr => hrows r (List.mem_cons_of_mem _ hr))]
      have hrowlen : row.length = n := hrows row (List.mem_cons_self _ _)
      rw [msm_map_range_len (rowf 0) row n hrowlen]
      have hget : ∀ j i, ((row :: rest).getD (j + 1) []).getD i 0
          = (rest.getD j []).getD i 0 := fun j i => rfl
      simp only [hget, List.getD_cons_zero, add_comm]

theorem sumCG_split (params : Params F P) (l : ℕ) (rnd : ProveRand F) (ξ w1 w2 : F) :
    ∑ j ∈ Finset.range params.m, ∑ i ∈ Finset.range params.n,
      (w1 * (sIdx params.n params.m l j i * ξ + aIdx params.n rnd j i)
        + w2 * (sIdx params.n params.m l j i * ξ + aIdx params.n rnd j i)
          * (ξ - (sIdx params.n params.m l j i * ξ + aIdx params.n rnd j i)))
        • ((params.CommitmentG.getD j []).getD i 0)
      = (w1 * ξ) • (∑ j ∈ Finset.range params.m, ∑ i ∈ Finset.range params.n,
            (sIdx params.n params.m l j i : F) • ((params.CommitmentG.getD j []).getD i 0))
        + w1 • (∑ j ∈ Finset.range params.m, ∑ i ∈ Finset.range params.n,
            aIdx params.n rnd j i • ((params.CommitmentG.getD j []).getD i 0))
        + (w2 * ξ) • (∑ j ∈ Finset.range params.m, ∑ i ∈ Finset.range params.n,
            (aIdx params.n rnd j i * (1 - 2 * sIdx params.n params.m l j i))
              • ((params.CommitmentG.getD j []).getD i 0))
        + w2 • (∑ j ∈ Finset.range params.m, ∑ i ∈ Finset.range params.n,
            (-aIdx params.n rnd j i * aIdx params.n rnd j i)
              • ((params.CommitmentG.getD j []).getD i 0)) := by
  simp only [Finset.smul_sum]
  rw [← Finset.sum_add_distrib, ← Finset.sum_add_distrib, ← Finset.sum_add_distrib]
  refine Finset.sum_congr rfl fun j _ => ?_
  rw [← Finset.sum_add_distrib, ← Finset.sum_add_distrib, ← Finset.sum_add_distrib]
  refine Finset.sum_congr rfl fun i _ => ?_
  rw [smul_smul, smul_smul, smul_smul, smul_smul, ← add_smul, ← add_smul, ← add_smul]
  congr 1
  have hss : (sIdx params.n params.m l j i : F) * sIdx params.n params.m l j i
      = sIdx params.n params.m l j i := by
    unfold sIdx delta
    split
    · rw [mul_one]
    · rw [mul_zero]
  linear_combination (-(w2 * ξ ^ 2)) * hss

theorem index_open_cancel (keys : List P) (Gpt : P) (r ξ : F) (rho : ℕ → F)
    (pk : ℕ → ℕ → F) (m N l : ℕ) (hl : l < N)
    (hkeysl : keys.getD l 0 = r • Gpt)
    (htop : ∀ k, k < N → pk k m = if k = l then 1 else 0) :
    (-(r * ξ ^ m - ∑ j ∈ Finset.range m, rho j * ξ ^ j)) • Gpt
      + (∑ t ∈ Finset.range m, (-ξ ^ t) •
          ((∑ k ∈ Finset.range N, pk k t • keys.getD k 0) + rho t • Gpt))
      + (∑ k ∈ Finset.range N,
          (∑ t ∈ Finset.range (m + 1), pk k t * ξ ^ t) • keys.getD k 0)
      = 0 := by
  have hM : ∀ k ∈ Finset.range N,
      (∑ t ∈ Finset.range (m + 1), pk k t * ξ ^ t) • keys.getD k 0
        = (∑ t ∈ Finset.range m, (pk k t * ξ ^ t) • keys.getD k 0)
          + (if k = l then ξ ^ m • keys.getD k 0 else 0) := by
    intro k hk
    rw [Finset.sum_range_succ, add_smul, Finset.sum_smul]
    congr 1
    rw [htop k (Finset.mem_range.mp hk)]
    by_cases h : k = l <;> simp [h]
  rw [Finset.sum_congr rfl hM, Finset.sum_add_distrib]
  have hlast : ∑ k ∈ Finset.range N, (if k = l then ξ ^ m • keys.getD k 0 else 0)
      = ξ ^ m • (r • Gpt) := by
    rw [Finset.sum_ite_eq' (Finset.range N) l (fun k => ξ ^ m • keys.getD k 0),
      if_pos (Finset.mem_range.mpr hl), hkeysl]
  rw [hlast]
  have hmid : ∑ t ∈ Finset.range m, (-ξ ^ t) •
      ((∑ k ∈ Finset.range N, pk k t • keys.getD k 0) + rho t • Gpt)
      = (∑ t ∈ Finset.range m, ∑ k ∈ Finset.range N,
          (-ξ ^ t * pk k t) • keys.getD k 0)
        + (∑ t ∈ Finset.range m, (-ξ ^ t * rho t)) • Gpt := by
    rw [Finset.sum_smul, ← Finset.sum_add_distrib]
    refine Finset.sum_congr rfl fun t _ => ?_
    rw [smul_add, Finset.smul_sum]
    congr 1
    · exact Finset.sum_congr rfl fun k _ => by rw [smul_smul]
    · rw [smul_smul]
  rw [hmid]
  have hcomm : (∑ k ∈ Finset.range N, ∑ t ∈ Finset.range m,
      (pk k t * ξ ^ t) • keys.getD k 0)
      = ∑ t ∈ Finset.range m, ∑ k ∈ Finset.range N,
          (pk k t * ξ ^ t) • keys.getD k 0 := Finset.sum_comm
  rw [hcomm]
  have hTT : (∑ t ∈ Finset.range m, ∑ k ∈ Finset.range N,
      (-ξ ^ t * pk k t) • keys.getD k 0)
      = - ∑ t ∈ Finset.range m, ∑ k ∈ Finset.range N,
          (pk k t * ξ ^ t) • keys.getD k 0 := by
    rw [← Finset.sum_neg_distrib]
    refine Finset.sum_congr rfl fun t _ => ?_
    rw [← Finset.sum_neg_distrib]
    refine Finset.sum_congr rfl fun k _ => ?_
    rw [← neg_smul]
    congr 1
    ring
  rw [hTT]
  have hT2 : (∑ t ∈ Finset.range m, (-ξ ^ t * rho t))
      = - ∑ j ∈ Finset.range m, rho j * ξ ^ j := by
    rw [← Finset.sum_neg_distrib]
    exact Finset.sum_congr rfl fun t _ => by ring
  rw [hT2]
  module

theorem tag_open_cancel (J : P) (r ξ w4 : F) (rho : ℕ → F) (m : ℕ) :
    (-w4 * (r * ξ ^ m - ∑ j ∈ Finset.range m, rho j * ξ ^ j)) • J
      + (∑ t ∈ Finset.range m, (-w4 * ξ ^ t) • (rho t • J))
      + (w4 * ξ ^ m) • (r • J) = 0 := by
  have h1 : (∑ t ∈ Finset.range m, (-w4 * ξ ^ t) • (rho t • J))
      = (-w4 * ∑ j ∈ Finset.range m, rho j * ξ ^ j) • J := by
    calc ∑ t ∈ Finset.range m, (-w4 * ξ ^ t) • (rho t • J)
        = ∑ t ∈ Finset.range m, (-w4 * (rho t * ξ ^ t)) • J := by
          refine Finset.sum_congr rfl fun t _ => ?_
          rw [smul_smul]
          congr 1
          ring
      _ = (∑ t ∈ Finset.range m, -w4 * (rho t * ξ ^ t)) • J := Finset.sum_smul.symm
      _ = (-w4 * ∑ j ∈ Finset.range m, rho j * ξ ^ j) • J := by
          congr 1
          rw [Finset.mul_sum]
  rw [h1]
  module

theorem honest_msm_zero (stmt : Statement F P) (l : ℕ) (r : F) (rnd : ProveRand F)
    (ξ w1 w2 w4 : F) (hv : stmt.params.Valid) (hl : l < stmt.params.N)
    (hMl : stmt.input_set.keys.getD l 0 = r • stmt.params.Gg)
    (hJ : r • stmt.J = stmt.params.U) :
    msm (verifyScalars stmt.params (proofVal stmt l r rnd ξ) ξ w1 w2 w4)
      (verifyPoints stmt (proofVal stmt l r rnd ξ)) = 0 := by
  obtain ⟨hn, hm, hG, hGrow⟩ := hv
  unfold verifyScalars verifyPoints
  rw [honest_fRebuildL stmt l r rnd ξ (by omega) (by omega),
    honest_mScalarsL stmt l r rnd ξ (by omega) (by omega),
    honest_mSum stmt l rnd ξ (by omega) (by omega)]
  simp only [proofVal]
  simp only [List.append_assoc, List.cons_append, List.nil_append, List.singleton_append]
  rw [msm_cons]
  have hlenCG : (((List.range stmt.params.m).map fun j =>
      (List.range stmt.params.n).map fun i =>
        sIdx stmt.params.n stmt.params.m l j i * ξ
          + aIdx stmt.params.n rnd j i).map fun f_row =>
      f_row.map fun f_item => w1 * f_item + w2 * f_item * (ξ - f_item)).flatten.length
      = stmt.params.CommitmentG.flatten.length := by
    rw [flatten_length_const _ stmt.params.n (by
      intro row hrow
      simp only [List.mem_map] at hrow
      obtain ⟨row', ⟨j, hj, rfl⟩, rfl⟩ := hrow
      simp), flatten_length_const stmt.params.CommitmentG stmt.params.n hGrow, hG]
    simp
  rw [msm_append _ _ _ _ hlenCG]
  rw [msm_cons, msm_cons, msm_cons, msm_cons, msm_cons, msm_cons]
  have hlenX : ((List.range stmt.params.m).map fun t => -ξ ^ t).length
      = (XvalL stmt.params l rnd stmt.input_set.keys).length := by
    simp [XvalL]
  rw [msm_append _ _ _ _ hlenX]
  have hlenY : ((List.range stmt.params.m).map fun t => -w4 * ξ ^ t).length
      = (YvalL stmt.params.m rnd stmt.J).length := by
    simp [YvalL]
  rw [msm_append _ _ _ _ hlenY]
  have hlenM : (((List.range stmt.params.N).map fun k =>
      ∑ t ∈ Finset.range (stmt.params.m + 1),
        (pRowL stmt.params.n stmt.params.m l rnd k).getD t 0 * ξ ^ t)).length
      = stmt.input_set.keys.length := by
    rw [stmt.hleng]
    simp
  rw [msm_append _ _ _ _ hlenM]
  rw [msm_singleton]
  simp only [List.map_map, Function.comp_def]
  rw [msm_flatten _ stmt.params.CommitmentG (by simp [hG]) (by
    intro p hp
    obtain ⟨h1, h2⟩ := List.of_mem_zip hp
    simp only [List.mem_map] at h1
    obtain ⟨j, hj, hji⟩ := h1
    rw [← hji, hGrow p.2 h2]
    simp)]
  rw [sum_zipWith_msm stmt.params.CommitmentG
    (fun j i => w1 * (sIdx stmt.params.n stmt.params.m l j i * ξ
        + aIdx stmt.params.n rnd j i)
      + w2 * (sIdx stmt.params.n stmt.params.m l j i * ξ + aIdx stmt.params.n rnd j i)
        * (ξ - (sIdx stmt.params.n stmt.params.m l j i * ξ + aIdx stmt.params.n rnd j i)))
    stmt.params.n stmt.params.m hG hGrow]
  rw [sumCG_split stmt.params l rnd ξ w1 w2]
  simp only [aMatL, sMatL, csMatL, sqMatL]
  rw [commit_matrix_eval stmt.params (fun j i => aIdx stmt.params.n rnd j i)
      rnd.r_A hG hGrow,
    commit_matrix_eval stmt.params
      (fun j i => (sIdx stmt.params.n stmt.params.m l j i : F)) rnd.r_B hG hGrow,
    commit_matrix_eval stmt.params
      (fun j i => aIdx stmt.params.n rnd j i
        * (1 - 2 * sIdx stmt.params.n stmt.params.m l j i)) rnd.r_C hG hGrow,
    commit_matrix_eval stmt.params
      (fun j i => -aIdx stmt.params.n rnd j i * aIdx stmt.params.n rnd j i)
      rnd.r_D hG hGrow]
  simp only [XvalL, YvalL]
  rw [msm_map_range_map (fun t => -ξ ^ t) _ stmt.params.m]
  rw [msm_map_range_map (fun t => -w4 * ξ ^ t) (fun t => rnd.rho t • stmt.J)
    stmt.params.m]
  rw [msm_map_range_len _ stmt.input_set.keys stmt.params.N stmt.hleng]
  have hXrow : ∀ t ∈ Finset.range stmt.params.m,
      (-ξ ^ t) • msm ((((List.range stmt.params.N).map fun k =>
          (pRowL stmt.params.n stmt.params.m l rnd k).getD t 0)) ++ [rnd.rho t])
        (stmt.input_set.keys ++ [stmt.params.Gg])
      = (-ξ ^ t) • ((∑ k ∈ Finset.range stmt.params.N,
          (pRowL stmt.params.n stmt.params.m l rnd k).getD t 0
            • stmt.input_set.keys.getD k 0) + rnd.rho t • stmt.params.Gg) := by
    intro t _
    rw [msm_append _ _ _ _ (by simp [stmt.hleng]),
      msm_map_range_len _ _ stmt.params.N stmt.hleng, msm_singleton]
  rw [Finset.sum_congr rfl hXrow]
  rw [← hJ]
  have hidx := index_open_cancel stmt.input_set.keys stmt.params.Gg r ξ rnd.rho
    (fun k t => (pRowL stmt.params.n stmt.params.m l rnd k).getD t 0)
    stmt.params.m stmt.params.N l hl hMl
    (fun k hk => pRowL_top stmt.params.n stmt.params.m l k rnd (by omega) (by omega) hk hl)
  simp only [] at hidx
  have htag := tag_open_cancel stmt.J r ξ w4 rnd.rho stmt.params.m
  have hcommit : (w1 * ξ) • (∑ j ∈ Finset.range stmt.params.m,
        ∑ i ∈ Finset.range stmt.params.n,
          (sIdx stmt.params.n stmt.params.m l j i : F)
            • (stmt.params.CommitmentG.getD j []).getD i 0)
      + w1 • (∑ j ∈ Finset.range stmt.params.m, ∑ i ∈ Finset.range stmt.params.n,
          aIdx stmt.params.n rnd j i • (stmt.params.CommitmentG.getD j []).getD i 0)
      + (w2 * ξ) • (∑ j ∈ Finset.range stmt.params.m, ∑ i ∈ Finset.range stmt.params.n,
          (aIdx stmt.params.n rnd j i * (1 - 2 * sIdx stmt.params.n stmt.params.m l j i))
            • (stmt.params.CommitmentG.getD j []).getD i 0)
      + w2 • (∑ j ∈ Finset.range stmt.params.m, ∑ i ∈ Finset.range stmt.params.n,
          (-aIdx stmt.params.n rnd j i * aIdx stmt.params.n rnd j i)
            • (stmt.params.CommitmentG.getD j []).getD i 0)
      + (w1 * (rnd.r_A + ξ * rnd.r_B) + w2 * (ξ * rnd.r_C + rnd.r_D))
          • stmt.params.CommitmentH
      + (-w1) • (rnd.r_A • stmt.params.CommitmentH
          + ∑ j ∈ Finset.range stmt.params.m, ∑ i ∈ Finset.range stmt.params.n,
              aIdx stmt.params.n rnd j i • (stmt.params.CommitmentG.getD j []).getD i 0)
      + (-w1 * ξ) • (rnd.r_B • stmt.params.CommitmentH
          + ∑ j ∈ Finset.range stmt.params.m, ∑ i ∈ Finset.range stmt.params.n,
              (sIdx stmt.params.n stmt.params.m l j i : F)
                • (stmt.params.CommitmentG.getD j []).getD i 0)
      + (-w2 * ξ) • (rnd.r_C • stmt.params.CommitmentH
          + ∑ j ∈ Finset.range stmt.params.m, ∑ i ∈ Finset.range stmt.params.n,
              (aIdx stmt.params.n rnd j i
                  * (1 - 2 * sIdx stmt.params.n stmt.params.m l j i))
                • (stmt.params.CommitmentG.getD j []).getD i 0)
      + (-w2) • (rnd.r_D • stmt.params.CommitmentH
          + ∑ j ∈ Finset.range stmt.params.m, ∑ i ∈ Finset.range stmt.params.n,
              (-aIdx stmt.params.n rnd j i * aIdx stmt.params.n rnd j i)
                • (stmt.params.CommitmentG.getD j []).getD i 0)
      = (0 : P) := by
    module
  have hsum := congrArg₂ (· + ·) (congrArg₂ (· + ·) hcommit hidx) htag
  simp only [add_zero] at hsum
  conv_rhs => rw [← hsum]
  module

end Completeness

section Claims

/-- Claim C1: for every valid parameter pair (`n ≥ 2`, `m ≥ 2`), every witness
`(l, r)` with `l ∈ [0, nᵐ)` and `r` a nonzero scalar (both enforced by the
`Witness` invariants), every statement whose input set satisfies `M[l] = r·G`
and whose linking tag satisfies `r·J = U`, and every optional message,
`Proof::prove` succeeds and the resulting proof makes `Proof::verify` return
`true` on the same statement and message, for every choice of the verifier's
random weights `w1`, `w2`, `w4`.  The Fiat-Shamir challenge oracle is assumed
never to return the zero scalar (otherwise `prove` exits with
`InvalidChallenge`, the case the spec files under challenge failure). -/
theorem prove_verify_completeness (w : Witness F P) (stmt : Statement F P)
    (message : Option (List ℕ)) (rnd : ProveRand F) (chal : List (TEntry P) → F)
    (w1 w2 w4 : F) (hv : stmt.params.Valid) (hparams : w.params = stmt.params)
    (hM : stmt.input_set.keys[w.l]? = some (w.r • stmt.params.Gg))
    (hJ : w.r • stmt.J = stmt.params.U)
    (hchal : ∀ t : List (TEntry P), chal t ≠ 0) :
    ∃ prf : Proof F P, Proof.prove w stmt message rnd chal = some (Except.ok prf) ∧
      Proof.verify prf stmt message w1 w2 w4 chal = some true := by
  have hxi : proveChal stmt message w.l rnd chal ≠ 0 := hchal _
  refine ⟨proofVal stmt w.l w.r rnd (proveChal stmt message w.l rnd chal), ?_, ?_⟩
  · rw [prove_eval w stmt message rnd chal hv hparams hM hJ, if_neg hxi]
  · obtain ⟨hn, hm, hG, hGrow⟩ := hv
    have hXI : chal (verifyTranscript stmt message
        (proofVal stmt w.l w.r rnd (proveChal stmt message w.l rnd chal)).A
        (proofVal stmt w.l w.r rnd (proveChal stmt message w.l rnd chal)).B
        (proofVal stmt w.l w.r rnd (proveChal stmt message w.l rnd chal)).C
        (proofVal stmt w.l w.r rnd (proveChal stmt message w.l rnd chal)).D
        (proofVal stmt w.l w.r rnd (proveChal stmt message w.l rnd chal)).X
        (proofVal stmt w.l w.r rnd (proveChal stmt message w.l rnd chal)).Y)
        = proveChal stmt message w.l rnd chal := rfl
    rw [verify_eval _ stmt message w1 w2 w4 chal (by omega) (by omega)
      (by simp [proofVal, fMatL])
      (by
        intro row hrow
        simp only [proofVal, fMatL, List.mem_map] at hrow
        obtain ⟨j, hj, rfl⟩ := hrow
        simp)
      (by rw [hXI]; exact hxi)]
    rw [hXI]
    have hbound : w.l < stmt.input_set.keys.length := by
      rcases List.getElem?_eq_some_iff.mp hM with ⟨hb, _⟩
      exact hb
    have hMl : stmt.input_set.keys.getD w.l 0 = w.r • stmt.params.Gg := by
      rw [List.getD_eq_getElem _ _ hbound]
      rcases List.getElem?_eq_some_iff.mp hM with ⟨hb, hval⟩
      exact hval
    have hl : w.l < stmt.params.N := by
      rw [← stmt.hleng]
      exact hbound
    rw [honest_msm_zero stmt w.l w.r rnd (proveChal stmt message w.l rnd chal)
      w1 w2 w4 ⟨hn, hm, hG, hGrow⟩ hl hMl hJ]
    simp

/-- Claim C2: prove and verify build identical transcripts up to the challenge
draw: both absorb, in the same order, the initialisation label "Triptych
proof", the version as u64(0), the message (only if present), the parameters
hash under "params", the input-set hash under "M", the compressed `J` under
"J", the compressed `A`, `B`, `C`, `D`, then each `X[j]` under "X", then each
`Y[j]` under "Y"; hence for equal statements, messages and proof elements the
two transcripts yield the same challenge. -/
theorem transcripts_agree (stmt : Statement F P) (message : Option (List ℕ))
    (A B Cc D : P) (X Y : List P) (chal : List (TEntry P) → F) :
    proveTranscript stmt message A B Cc D X Y
        = verifyTranscript stmt message A B Cc D X Y
      ∧ chal (proveTranscript stmt message A B Cc D X Y)
        = chal (verifyTranscript stmt message A B Cc D X Y) :=
  ⟨rfl, rfl⟩

/-- Claim C3 (amended): verify is total only on proofs whose `f` matrix has at
least `m` rows each with at least `n - 1` scalars; on those it returns a plain
boolean, and a zero challenge yields `false`.  (On malformed `f` dimensions
the Rust code panics via the out-of-bounds index `self.f[j]`, modelled here by
`Proof.verify` returning `none`; the original claim's "never panics for
malformed f dimensions" is refuted by the counterexample theorem.) -/
theorem verify_total_wellformed (proof : Proof F P) (stmt : Statement F P)
    (message : Option (List ℕ)) (w1 w2 w4 : F) (chal : List (TEntry P) → F)
    (hv : stmt.params.Valid)
    (hf : stmt.params.m ≤ proof.f.length)
    (hrows : ∀ row ∈ proof.f, stmt.params.n - 1 ≤ row.length) :
    (∃ b : Bool, Proof.verify proof stmt message w1 w2 w4 chal = some b) ∧
      (chal (verifyTranscript stmt message proof.A proof.B proof.C proof.D
          proof.X proof.Y) = 0 →
        Proof.verify proof stmt message w1 w2 w4 chal = some false) := by
  obtain ⟨hn, hm, _, _⟩ := hv
  constructor
  · by_cases hxi : chal (verifyTranscript stmt message proof.A proof.B proof.C
        proof.D proof.X proof.Y) = 0
    · exact ⟨false, verify_zero_chal proof stmt message w1 w2 w4 chal (by omega) hxi⟩
    · exact ⟨_, verify_eval proof stmt message w1 w2 w4 chal (by omega) (by omega)
        hf hrows hxi⟩
  · intro h
    exact verify_zero_chal proof stmt message w1 w2 w4 chal (by omega) h

/-- Claim C4: prove returns `Err(InvalidParameter)`, and no proof, exactly
when a precondition fails: the witness's parameters differ from the
statement's, or `l` is out of range of the input set `M`, or
`M[l] ≠ r·G`, or `r·J ≠ U`; the checks run before any proof element is
produced. -/
theorem prove_invalid_parameter_iff (w : Witness F P) (stmt : Statement F P)
    (message : Option (List ℕ)) (rnd : ProveRand F) (chal : List (TEntry P) → F)
    (hv : stmt.params.Valid) :
    Proof.prove w stmt message rnd chal
        = some (Except.error ProofError.InvalidParameter)
      ↔ ¬(w.params = stmt.params
          ∧ stmt.input_set.keys[w.l]? = some (w.r • stmt.params.Gg)
          ∧ w.r • stmt.J = stmt.params.U) := by
  constructor
  · intro h hpre
    obtain ⟨hparams, hM, hJ⟩ := hpre
    rw [prove_eval w stmt message rnd chal hv hparams hM hJ] at h
    by_cases hxi : proveChal stmt message w.l rnd chal = 0
    · rw [if_pos hxi] at h
      simp at h
    · rw [if_neg hxi] at h
      simp at h
  · intro h
    simp only [Proof.prove]
    by_cases hparams : w.params = stmt.params
    · rw [if_neg (not_not_intro hparams)]
      cases hMv : stmt.input_set.keys[w.l]? with
      | none =>
          rfl
      | some Ml =>
          rw [okOrInvalid_some, obind_oret]
          by_cases hMl : Ml = w.r • stmt.params.Gg
          · have hJ : ¬ (w.r • stmt.J = stmt.params.U) := by
              intro hJ
              exact h ⟨hparams, by rw [hMv, hMl], hJ⟩
            rw [if_neg (not_not_intro hMl), if_pos hJ]
            rfl
          · rw [if_pos hMl]
            rfl
    · rw [if_pos hparams]
      rfl

/-- Claim C5: `xi_powers` returns exactly the `m + 1` powers
`[ξ⁰, ξ¹, …, ξᵐ]` of the challenge `ξ`, and returns
`Err(InvalidChallenge)` iff some returned power would be zero, which happens
exactly when `ξ = 0`; prove propagates this error and verify returns `false`
in that case (here the oracle `chal` is identically zero so both the prover's
and the verifier's challenge is zero). -/
theorem xi_powers_challenge_spec (xi : F) (mm : ℕ) (w : Witness F P)
    (stmt : Statement F P) (message : Option (List ℕ)) (rnd : ProveRand F)
    (chal : List (TEntry P) → F) (w1 w2 w4 : F) (prf : Proof F P)
    (hm : 2 ≤ mm) (hv : stmt.params.Valid) (hparams : w.params = stmt.params)
    (hM : stmt.input_set.keys[w.l]? = some (w.r • stmt.params.Gg))
    (hJ : w.r • stmt.J = stmt.params.U)
    (hchal : ∀ t : List (TEntry P), chal t = 0) :
    (xi ≠ 0 → xi_powers xi mm
        = Except.ok ((List.range (mm + 1)).map fun t => xi ^ t)) ∧
    (xi_powers xi mm = Except.error ProofError.InvalidChallenge
        ↔ ∃ t ≤ mm, xi ^ t = 0) ∧
    ((∃ t ≤ mm, xi ^ t = 0) ↔ xi = 0) ∧
    Proof.prove w stmt message rnd chal
        = some (Except.error ProofError.InvalidChallenge) ∧
    Proof.verify prf stmt message w1 w2 w4 chal = some false := by
  obtain ⟨hn, hm2, hG, hGrow⟩ := hv
  refine ⟨fun hxi => xi_powers_ok xi mm hxi, xi_powers_err_iff xi mm (by omega),
    pow_zero_iff_exists xi mm (by omega), ?_, ?_⟩
  · rw [prove_eval w stmt message rnd chal ⟨hn, hm2, hG, hGrow⟩ hparams hM hJ,
      if_pos (show proveChal stmt message w.l rnd chal = 0 from hchal _)]
  · exact verify_zero_chal prf stmt message w1 w2 w4 chal (by omega) (hchal _)

/-- Claim C6: for every `k < N` with base-`n` digits `d = decompose(k)`, the
coefficient vector `p[k]` computed by the prover's iterated convolution
(`convCoeffs` over the prover's mask matrix `a` and selector matrix `σ`)
equals the coefficients of the polynomial
`∏_{j<m} (σ[j][d_j]·x + a[j][d_j])`; in particular `p[l]` has degree `m` with
leading coefficient 1, and for every `k ≠ l` the degree-`m` coefficient of
`p[k]` is zero (the last two statements combined in the `if`). -/
theorem conv_coeffs_spec (nn mm l k : ℕ) (rnd : ProveRand F)
    (hn : 2 ≤ nn) (hm : 2 ≤ mm) (hk : k < nn ^ mm) (hl : l < nn ^ mm) :
    ∃ c : List F,
      convCoeffs (aMatL nn mm rnd) (sMatL nn mm l) (natDigits nn k mm) mm = oret c
      ∧ c.length = mm + 1
      ∧ (∀ t < mm + 1, c.getD t 0 = (∏ j ∈ Finset.range mm,
          (Polynomial.C (aIdx nn rnd j ((natDigits nn k mm).getD j 0))
            + Polynomial.C ((sIdx nn mm l j ((natDigits nn k mm).getD j 0) : F))
              * Polynomial.X)).coeff t)
      ∧ c.getD mm 0 = (if k = l then 1 else 0) := by
  refine ⟨pRowL nn mm l rnd k, convCoeffs_eval nn mm l k rnd (by omega) (by omega),
    pRowL_length nn mm l k rnd, ?_, ?_⟩
  · exact pRowL_coeff nn mm l k rnd (by omega) (by omega)
  · exact pRowL_top nn mm l k rnd (by omega) (by omega) hk hl

/-- Claim C7: round-trip of the omitted `f` column: for every honest proof
(produced by prove on satisfied preconditions and a never-zero challenge
oracle), the verifier's reconstruction `f[j][0] = ξ − Σ_{i≥1} f[j][i]`
(`fRebuild`) recovers exactly the prover's full row
`[σ[j][i]·ξ + a[j][i]]_{i<n}` for every row `j`, and in particular entry 0 is
`σ[j][0]·ξ + a[j][0]`. -/
theorem f_column_roundtrip (w : Witness F P) (stmt : Statement F P)
    (message : Option (List ℕ)) (rnd : ProveRand F) (chal : List (TEntry P) → F)
    (hv : stmt.params.Valid) (hparams : w.params = stmt.params)
    (hM : stmt.input_set.keys[w.l]? = some (w.r • stmt.params.Gg))
    (hJ : w.r • stmt.J = stmt.params.U)
    (hchal : ∀ t : List (TEntry P), chal t ≠ 0) :
    ∃ prf : Proof F P, Proof.prove w stmt message rnd chal = some (Except.ok prf) ∧
      ∀ j < stmt.params.m,
        fRebuild (proveChal stmt message w.l rnd chal) (prf.f.getD j [])
          = (List.range stmt.params.n).map fun i =>
              (sIdx stmt.params.n stmt.params.m w.l j i : F)
                * proveChal stmt message w.l rnd chal
                + aIdx stmt.params.n rnd j i := by
  obtain ⟨hn, hm, hG, hGrow⟩ := hv
  have hxi : proveChal stmt message w.l rnd chal ≠ 0 := hchal _
  refine ⟨proofVal stmt w.l w.r rnd (proveChal stmt message w.l rnd chal), ?_, ?_⟩
  · rw [prove_eval w stmt message rnd chal ⟨hn, hm, hG, hGrow⟩ hparams hM hJ,
      if_neg hxi]
  · intro j hj
    have h := honest_fRebuildL stmt w.l w.r rnd (proveChal stmt message w.l rnd chal)
      (by omega) (by omega)
    have h2 := congrArg (fun L => L.getD j ([] : List F)) h
    simp only [fRebuildL] at h2
    rw [getD_range_map _ stmt.params.m j ([] : List F) hj,
      getD_range_map _ stmt.params.m j ([] : List F) hj] at h2
    exact h2

/-- Claim C8 (amended): the three verifier weights are independent inputs and
verify runs to completion for every choice of them, including zero values:
for every well-shaped proof and all `w1 w2 w4` (no nonzero restriction, since
`Scalar::random` in the Rust code samples uniformly over the whole field and
performs no zero check) verify returns a plain boolean.  The original claim
that each sampled weight is nonzero is refuted by the counterexample theorem,
in which all-zero weights make verify accept. -/
theorem verify_any_weights_total (proof : Proof F P) (stmt : Statement F P)
    (message : Option (List ℕ)) (chal : List (TEntry P) → F) (w1 w2 w4 : F)
    (hv : stmt.params.Valid)
    (hf : stmt.params.m ≤ proof.f.length)
    (hrows : ∀ row ∈ proof.f, stmt.params.n - 1 ≤ row.length) :
    ∃ b : Bool, Proof.verify proof stmt message w1 w2 w4 chal = some b := by
  obtain ⟨hn, hm, _, _⟩ := hv
  by_cases hxi : chal (verifyTranscript stmt message proof.A proof.B proof.C
      proof.D proof.X proof.Y) = 0
  · exact ⟨false, verify_zero_chal proof stmt message w1 w2 w4 chal (by omega) hxi⟩
  · exact ⟨_, verify_eval proof stmt message w1 w2 w4 chal (by omega) (by omega)
      hf hrows hxi⟩

/-- Claim C9: shape invariant of produced proofs: every proof returned
successfully by prove over parameters `(n, m)` has `X` and `Y` of length
exactly `m`, `f` with exactly `m` rows of exactly `n - 1` scalars each (the
`i = 0` column omitted); the four group elements `A B C D` and the three
response scalars `z_A z_C z` are fields of the `Proof` structure by
construction. -/
theorem proof_shape (w : Witness F P) (stmt : Statement F P)
    (message : Option (List ℕ)) (rnd : ProveRand F) (chal : List (TEntry P) → F)
    (prf : Proof F P)
    (hv : stmt.params.Valid)
    (hok : Proof.prove w stmt message rnd chal = some (Except.ok prf)) :
    prf.X.length = stmt.params.m ∧ prf.Y.length = stmt.params.m ∧
      prf.f.length = stmt.params.m ∧
      ∀ row ∈ prf.f, row.length = stmt.params.n - 1 := by
  by_cases hparams : w.params = stmt.params
  · cases hMv : stmt.input_set.keys[w.l]? with
    | none =>
        exfalso
        have hval : Proof.prove w stmt message rnd chal
            = some (Except.error ProofError.InvalidParameter) := by
          simp only [Proof.prove, if_neg (not_not_intro hparams), hMv]
          rfl
        rw [hval] at hok
        simp at hok
    | some Ml =>
        by_cases hMl : Ml = w.r • stmt.params.Gg
        · by_cases hJ : w.r • stmt.J = stmt.params.U
          · subst hMl
            rw [prove_eval w stmt message rnd chal hv hparams (by rw [hMv]) hJ] at hok
            by_cases hxi : proveChal stmt message w.l rnd chal = 0
            · rw [if_pos hxi] at hok
              simp at hok
            · rw [if_neg hxi] at hok
              have hprf : prf = proofVal stmt w.l w.r rnd
                  (proveChal stmt message w.l rnd chal) := by
                have := Option.some.inj hok
                exact (Except.ok.inj this).symm
              subst hprf
              refine ⟨by simp [proofVal, XvalL], by simp [proofVal, YvalL],
                by simp [proofVal, fMatL], ?_⟩
              intro row hrow
              simp only [proofVal, fMatL, List.mem_map] at hrow
              obtain ⟨j, hj, rfl⟩ := hrow
              simp
          · exfalso
            simp only [Proof.prove, if_neg (not_not_intro hparams), hMv,
              okOrInvalid_some, obind_oret, if_neg (not_not_intro hMl),
              if_pos hJ] at hok
            simp [othrow, oret] at hok
        · exfalso
          simp only [Proof.prove, if_neg (not_not_intro hparams), hMv,
            okOrInvalid_some, obind_oret, if_pos hMl] at hok
          simp [othrow, oret] at hok
  · exfalso
    simp only [Proof.prove, if_pos hparams] at hok
    simp [othrow, oret] at hok

/-- Claim C10: prove never panics for any inputs over valid parameters
(`n ≥ 2`, `m ≥ 2`): it always returns a value (modelled as `some`, while a
Rust panic would be `none`), so every failure exit is a returned
`ProofError`; out-of-range `l` is caught by the checked lookup `M.get(l)`
(here `keys[w.l]?`) and surfaced as `InvalidParameter`. -/
theorem prove_no_panic (w : Witness F P) (stmt : Statement F P)
    (message : Option (List ℕ)) (rnd : ProveRand F) (chal : List (TEntry P) → F)
    (hv : stmt.params.Valid) :
    ∃ res : Except ProofError (Proof F P),
      Proof.prove w stmt message rnd chal = some res := by
  by_cases hparams : w.params = stmt.params
  · cases hMv : stmt.input_set.keys[w.l]? with
    | none =>
        refine ⟨Except.error ProofError.InvalidParameter, ?_⟩
        simp only [Proof.prove, if_neg (not_not_intro hparams), hMv]
        rfl
    | some Ml =>
        by_cases hMl : Ml = w.r • stmt.params.Gg
        · by_cases hJ : w.r • stmt.J = stmt.params.U
          · subst hMl
            rw [prove_eval w stmt message rnd chal hv hparams (by rw [hMv]) hJ]
            exact ⟨_, rfl⟩
          · refine ⟨Except.error ProofError.InvalidParameter, ?_⟩
            simp only [Proof.prove, if_neg (not_not_intro hparams), hMv,
              okOrInvalid_some, obind_oret, if_neg (not_not_intro hMl), if_pos hJ]
            rfl
        · refine ⟨Except.error ProofError.InvalidParameter, ?_⟩
          simp only [Proof.prove, if_neg (not_not_intro hparams), hMv,
            okOrInvalid_some, obind_oret, if_pos hMl]
          rfl
  · refine ⟨Except.error ProofError.InvalidParameter, ?_⟩
    simp only [Proof.prove, if_pos hparams]
    rfl

end Claims

section Concrete

/-- A small concrete scalar field for exercising the definitions. -/
abbrev Zp : Type := ZMod 11

instance : Fact (Nat.Prime 11) := ⟨by norm_num⟩

/-- Concrete valid parameters with `n = 2`, `m = 2`, `N = 4`. -/
def params0 : Params Zp Zp :=
  { n := 2, m := 2, Gg := 1, U := 3, CommitmentH := 2
    CommitmentG := [[1, 2], [3, 4]], hash := [] }

/-- Concrete input set; entry 0 is the honest key `1 = 1 • G`. -/
def iset0 : InputSet Zp := { keys := [1, 5, 6, 7], hash := [] }

/-- Concrete statement satisfied by the witness `(l, r) = (0, 1)`. -/
def stmt0 : Statement Zp Zp :=
  { params := params0, input_set := iset0, J := 3, hleng := rfl }

/-- Statement with a wrong linking tag: `r·J = 5 ≠ 3 = U`. -/
def stmtBadJ : Statement Zp Zp :=
  { params := params0, input_set := iset0, J := 5, hleng := rfl }

/-- Concrete witness `(l, r) = (0, 1)`. -/
def w0 : Witness Zp Zp :=
  { params := params0, l := 0, r := 1, hl := by decide, hr := by decide }

/-- Concrete prover randomness. -/
def rnd0 : ProveRand Zp :=
  { r_A := 1, aInit := fun j i => ((j + 2 * i + 1 : ℕ) : Zp), r_B := 2, r_C := 3
    r_D := 4, rho := fun j => ((j + 5 : ℕ) : Zp) }

/-- A challenge oracle that always answers 1. -/
def chal1 : List (TEntry Zp) → Zp := fun _ => 1

/-- A challenge oracle that always answers 0. -/
def chal0 : List (TEntry Zp) → Zp := fun _ => 0

/-- A malformed proof whose `f` matrix has no rows at all. -/
def badProof : Proof Zp Zp :=
  { A := 0, B := 0, C := 0, D := 0, X := [0, 0], Y := [0, 0], f := []
    z_A := 0, z_C := 0, z := 0 }

/-- A well-shaped proof: `f` has `m = 2` rows of `n - 1 = 1` scalars each. -/
def goodProof : Proof Zp Zp :=
  { A := 0, B := 0, C := 0, D := 0, X := [0, 0], Y := [0, 0], f := [[1], [2]]
    z_A := 0, z_C := 0, z := 0 }

/-- All-zero parameters, used to show verify accepts with zero weights. -/
def zeroParams : Params Zp Zp :=
  { n := 2, m := 2, Gg := 0, U := 0, CommitmentH := 0
    CommitmentG := [[0, 0], [0, 0]], hash := [] }

/-- All-zero input set over `zeroParams`. -/
def zeroIset : InputSet Zp := { keys := [0, 0, 0, 0], hash := [] }

/-- All-zero statement over `zeroParams`. -/
def zeroStmt : Statement Zp Zp :=
  { params := zeroParams, input_set := zeroIset, J := 0, hleng := rfl }

/-- All-zero well-shaped proof over `zeroParams`. -/
def zeroProof : Proof Zp Zp :=
  { A := 0, B := 0, C := 0, D := 0, X := [0, 0], Y := [0, 0], f := [[0], [0]]
    z_A := 0, z_C := 0, z := 0 }

/-- The honest proof value for the concrete data under challenge 1. -/
def prf0 : Proof Zp Zp := proofVal stmt0 0 1 rnd0 1

/-- Witness for Claim C1 at the concrete instance. -/
theorem prove_verify_completeness_witness :
    ∃ prf : Proof Zp Zp, Proof.prove w0 stmt0 none rnd0 chal1 = some (Except.ok prf) ∧
      Proof.verify prf stmt0 none 0 1 2 chal1 = some true :=
  prove_verify_completeness w0 stmt0 none rnd0 chal1 0 1 2 (by decide) rfl
    (by decide) (by decide) (fun t => one_ne_zero)

/-- Counterexample for Claim C3: on a proof whose `f` matrix is empty while
`m = 2`, verify hits the out-of-bounds panic `self.f[j]` (modelled as `none`)
instead of returning a boolean. -/
theorem verify_malformed_f_panics :
    Proof.verify badProof stmt0 none 1 1 1 chal1 = none := by
  decide

/-- Witness for Claim C3 (amended) at the concrete instance, with the
identically-zero challenge oracle exercising the `some false` branch. -/
theorem verify_total_wellformed_witness :
    (∃ b : Bool, Proof.verify goodProof stmt0 none 1 2 3 chal0 = some b) ∧
      (chal0 (verifyTranscript stmt0 none goodProof.A goodProof.B goodProof.C
          goodProof.D goodProof.X goodProof.Y) = 0 →
        Proof.verify goodProof stmt0 none 1 2 3 chal0 = some false) :=
  verify_total_wellformed goodProof stmt0 none 1 2 3 chal0 (by decide) (by decide)
    (by decide)

/-- Witness for Claim C4 at the concrete instance: the linking-tag
precondition fails, so prove returns `InvalidParameter`. -/
theorem prove_invalid_parameter_iff_witness :
    Proof.prove w0 stmtBadJ none rnd0 chal1
      = some (Except.error ProofError.InvalidParameter) :=
  (prove_invalid_parameter_iff w0 stmtBadJ none rnd0 chal1 (by decide)).mpr
    (by decide)

/-- Witness for Claim C5 at the concrete instance with challenge 2 for the
power facts and the identically-zero oracle for the propagation facts. -/
theorem xi_powers_challenge_spec_witness :
    ((2 : Zp) ≠ 0 → xi_powers (2 : Zp) 2
        = Except.ok ((List.range 3).map fun t => (2 : Zp) ^ t)) ∧
    (xi_powers (2 : Zp) 2 = Except.error ProofError.InvalidChallenge
        ↔ ∃ t ≤ 2, (2 : Zp) ^ t = 0) ∧
    ((∃ t ≤ 2, (2 : Zp) ^ t = 0) ↔ (2 : Zp) = 0) ∧
    Proof.prove w0 stmt0 none rnd0 chal0
        = some (Except.error ProofError.InvalidChallenge) ∧
    Proof.verify badProof stmt0 none 1 1 1 chal0 = some false :=
  xi_powers_challenge_spec (2 : Zp) 2 w0 stmt0 none rnd0 chal0 1 1 1 badProof
    (by omega) (by decide) rfl (by decide) (by decide) (fun t => rfl)

/-- Witness for Claim C6 at the concrete instance `k = 1 ≠ 0 = l`. -/
theorem conv_coeffs_spec_witness :
    ∃ c : List Zp,
      convCoeffs (aMatL 2 2 rnd0) (sMatL 2 2 0) (natDigits 2 1 2) 2 = oret c
      ∧ c.length = 3
      ∧ (∀ t < 3, c.getD t 0 = (∏ j ∈ Finset.range 2,
          (Polynomial.C (aIdx 2 rnd0 j ((natDigits 2 1 2).getD j 0))
            + Polynomial.C ((sIdx 2 2 0 j ((natDigits 2 1 2).getD j 0) : Zp))
              * Polynomial.X)).coeff t)
      ∧ c.getD 2 0 = (if 1 = 0 then 1 else 0) :=
  conv_coeffs_spec 2 2 0 1 rnd0 (le_refl 2) (le_refl 2) (by decide) (by decide)

/-- Witness for Claim C7 at the concrete instance. -/
theorem f_column_roundtrip_witness :
    ∃ prf : Proof Zp Zp, Proof.prove w0 stmt0 none rnd0 chal1 = some (Except.ok prf) ∧
      ∀ j < stmt0.params.m,
        fRebuild (proveChal stmt0 none w0.l rnd0 chal1) (prf.f.getD j [])
          = (List.range stmt0.params.n).map fun i =>
              (sIdx stmt0.params.n stmt0.params.m w0.l j i : Zp)
                * proveChal stmt0 none w0.l rnd0 chal1
                + aIdx stmt0.params.n rnd0 j i :=
  f_column_roundtrip w0 stmt0 none rnd0 chal1 (by decide) rfl (by decide)
    (by decide) (fun t => one_ne_zero)

/-- Counterexample for Claim C8: with all three weights zero, verify runs to
completion and even accepts the all-zero proof over the all-zero statement,
so a run of verify in which a sampled weight is zero is not excluded by the
code (`Scalar::random` can return zero and no check rejects it). -/
theorem verify_accepts_zero_weights :
    Proof.verify zeroProof zeroStmt none 0 0 0 chal1 = some true := by
  decide

/-- Witness for Claim C8 (amended) at the concrete instance with all weights
zero. -/
theorem verify_any_weights_total_witness :
    ∃ b : Bool, Proof.verify zeroProof zeroStmt none 0 0 0 chal1 = some b :=
  verify_any_weights_total zeroProof zeroStmt none chal1 0 0 0 (by decide)
    (by decide) (by decide)

/-- Witness for Claim C9 at the concrete instance (the binder-free shape
conjuncts, instantiated at the honest concrete proof). -/
theorem proof_shape_witness :
    prf0.X.length = stmt0.params.m ∧ prf0.Y.length = stmt0.params.m ∧
      prf0.f.length = stmt0.params.m := by
  have h := proof_shape w0 stmt0 none rnd0 chal1 prf0 (by decide)
    (by
      rw [prove_eval w0 stmt0 none rnd0 chal1 (by decide) rfl (by decide) (by decide)]
      rfl)
  exact ⟨h.1, h.2.1, h.2.2.1⟩

/-- Witness for Claim C10 at the concrete instance. -/
theorem prove_no_panic_witness :
    ∃ res : Except ProofError (Proof Zp Zp),
      Proof.prove w0 stmt0 none rnd0 chal1 = some res :=
  prove_no_panic w0 stmt0 none rnd0 chal1 (by decide)

end Concrete

end Triptych
